import Mathlib

/-!
Verification development for the UI_RENDER repository.

This file gives a shallow embedding of the delegated event-binding and
data-resolution engine of `src/utils/utils.js` (the second, authoritative
variant in that file, which the components import), together with the
data-preprocessing step of `PanelRender.render` and `ListView.draw`, and
proves the specification claims about them.

Modelling conventions:
* JS values are the inductive `JsVal`; machine numbers are `Int` (the code
  only manipulates integer indices and option values; `NaN` is modelled as
  `Option.none` where it can occur, namely item indices).
* DOM nodes are records with a numeric identity, a parent pointer, a class
  list, the `data-index` attribute and the `_uiIndex` fast-path property.
  A document is the list of its nodes; list order is document order.
  Upward walks (`closest`, `contains`, the delegation loop) use a fuel of
  `nodes.length + 1`, which is enough for every acyclic parent chain.
* CSS selectors: the engine only ever inspects selectors through
  `Element.matches` / `querySelectorAll` / `closest`.  The selectors the
  code itself builds are comma-joined class selectors (`.a,.b`), so the
  model interprets a selector string as the OR of its `.class` fragments;
  fragments not of that shape match nothing.
* The mutable `EVENT_STORE` `WeakMap`, the native listener list of the
  root element, and the `currentActive` closure variable of
  `enableNearestHover` are threaded explicitly through an `EngineState`.
-/

namespace UIRender

/-! ## JS values -/

mutual

/-- Shallow embedding of the JS values the utilities manipulate.  Numbers
are integers (the code only uses integer indices and literals).  Object
fields and array elements are the mutual types `JsFields` and `JsElems`
so that all recursion over values is structural. -/
inductive JsVal where
  | vnull : JsVal
  | vundefined : JsVal
  | vbool (b : Bool) : JsVal
  | vnum (n : Int) : JsVal
  | vstr (s : String) : JsVal
  | varr (elems : JsElems) : JsVal
  | vobj (fields : JsFields) : JsVal

/-- Ordered own enumerable fields of a JS object. -/
inductive JsFields where
  | fnil : JsFields
  | fcons (key : String) (val : JsVal) (rest : JsFields) : JsFields

/-- Elements of a JS array. -/
inductive JsElems where
  | enil : JsElems
  | econs (head : JsVal) (rest : JsElems) : JsElems

end

/-- Builds a `JsFields` from an association list (literal helper). -/
def mkFields : List (String × JsVal) → JsFields
  | [] => .fnil
  | (k, v) :: rest => .fcons k v (mkFields rest)

/-- Builds an object literal. -/
def mkObj (l : List (String × JsVal)) : JsVal := .vobj (mkFields l)

/-- Builds a `JsElems` from a list (literal helper). -/
def mkElems : List JsVal → JsElems
  | [] => .enil
  | v :: rest => .econs v (mkElems rest)

/-- Builds an array literal. -/
def mkArr (l : List JsVal) : JsVal := .varr (mkElems l)

/-- JS truthiness of a `JsVal` (`Boolean(v)`). -/
def jsTruthy : JsVal → Bool
  | .vnull => false
  | .vundefined => false
  | .vbool b => b
  | .vnum n => n ≠ 0
  | .vstr s => s ≠ ""
  | .varr _ => true
  | .vobj _ => true

/-- The guard `source[key] && typeof source[key] === "object" &&
!Array.isArray(source[key])` of `deepMerge`: true exactly for plain
(non-array) objects, since `null` is falsy and primitives are not of
object type. -/
def isPlainMapping : JsVal → Bool
  | .vobj _ => true
  | _ => false

/-- Indexed fields of an array, as produced by spreading it (`{...arr}`
yields `{0: .., 1: ..}`); `i` is the index of the first element. -/
def elemsToFields (i : Nat) : JsElems → JsFields
  | .enil => .fnil
  | .econs v rest => .fcons (toString i) v (elemsToFields (i + 1) rest)

/-- Own enumerable fields of a value, as used by the spread `{...target}`:
objects yield their fields, arrays their indexed elements, primitives
nothing. -/
def objFields : JsVal → JsFields
  | .vobj fields => fields
  | .varr elems => elemsToFields 0 elems
  | _ => .fnil

/-- Object property lookup; `none` models an absent key (JS `undefined`). -/
def getField : JsFields → String → Option JsVal
  | .fnil, _ => none
  | .fcons k v rest, key => if k = key then some v else getField rest key

/-- Property assignment `result[key] = v`: replaces the value in place if
the key exists, otherwise appends it (JS insertion order). -/
def setField : JsFields → String → JsVal → JsFields
  | .fnil, key, v => .fcons key v .fnil
  | .fcons k w rest, key, v =>
      if k = key then .fcons k v rest else .fcons k w (setField rest key v)

/-- The expression `target[key] || {}`: an absent or falsy value is
replaced by an empty object. -/
def jsOrEmpty (v : Option JsVal) : JsVal :=
  match v with
  | none => .vobj .fnil
  | some w => if jsTruthy w then w else .vobj .fnil

mutual

/-- Embedding of `deepMerge(target, source)` from `src/utils/utils.js`
(lines 526-536): the result starts as `{...target}` and every key of
`source` is processed in order; plain-mapping values recurse into
`target[key] || {}`, every other value overwrites.  The JS function never
writes into either argument, so a pure function is a faithful model.  A
non-object source enumerates no keys (in the repository `deepMerge` is
only ever applied to plain option objects). -/
def deepMerge (target source : JsVal) : JsVal :=
  match source with
  | .vobj sfields => .vobj (deepMergeFields (objFields target) sfields (objFields target))
  | _ => .vobj (objFields target)

/-- The `for (const key in source)` loop of `deepMerge`: `tfields` are the
fields of the original target, the second argument holds the still
unprocessed source fields, the third the result object built so far. -/
def deepMergeFields (tfields : JsFields) : JsFields → JsFields → JsFields
  | .fnil, acc => acc
  | .fcons key sv rest, acc =>
      let v :=
        match sv with
        | .vobj _ => deepMerge (jsOrEmpty (getField tfields key)) sv
        | _ => sv
      deepMergeFields tfields rest (setField acc key v)

end

/-! ## Naming rules and class-name builders -/

namespace RULES

/-- `RULES.classPrefix`. -/
def classPfx : String := "dh"

/-- `RULES.dataBindClass`. -/
def dataBindClass : String := "data-bind-item"

/-- `RULES.eventClass`, the discoverability marker class. -/
def eventClass : String := classPfx ++ "-event"

/-- `RULES.eventActiveClass`, the hover active class. -/
def eventActiveClass : String := eventClass ++ "-active"

end RULES

/-- The `string | string[]` union accepted by the class-name builders. -/
inductive StrOrList where
  | single (s : String) : StrOrList
  | many (l : List String) : StrOrList
deriving Repr, DecidableEq

/-- `Array.isArray(x) ? x : [x]`. -/
def toArr : StrOrList → List String
  | .single s => [s]
  | .many l => l

/-- JS truthiness of a string (`filter(Boolean)` keeps non-empty ones). -/
def strTruthy (s : String) : Bool := s ≠ ""

/-- Embedding of `makeClassName(prefixed, raw)` (utils.js lines 586-593):
truthy prefixed tokens get the namespace prefix, truthy raw tokens pass
through, all joined by spaces. -/
def makeClassName (prefixed raw : StrOrList) : String :=
  let prefArr := toArr prefixed
  let rawArr := toArr raw
  let pcs := (prefArr.filter strTruthy).map (fun p => RULES.classPfx ++ "-" ++ p)
  String.intercalate " " (pcs ++ rawArr.filter strTruthy)

/-- Embedding of `makeSelectorClassName(prefixed, raw)` (utils.js lines
627-635).  Note that the prefixed list is mapped without a
`filter(Boolean)` step, unlike the raw list. -/
def makeSelectorClassName (prefixed raw : StrOrList) : String :=
  let prefArr := toArr prefixed
  let rawArr := toArr raw
  let prefSelectors := prefArr.map (fun n => "." ++ makeClassName (.many [n]) (.many []))
  let rawSelectors := (rawArr.filter strTruthy).map (fun n => "." ++ n)
  String.intercalate "," (prefSelectors ++ rawSelectors)

/-! ## DOM model -/

/-- A DOM element: numeric identity, parent pointer, class list, the
textual `data-index` attribute (`dataset.index`) and the `_uiIndex`
fast-path property.  `_uiIndex` is `Option (Option Int)`: the outer
option is presence (the `??` check), the inner one distinguishes an
integer from `NaN`. -/
structure DomNode where
  nid : Nat
  parent : Option Nat
  classes : List String
  datasetIndex : Option String
  uiIndex : Option (Option Int)
deriving Repr, DecidableEq

/-- A document: the list of its elements, in document order. -/
structure Dom where
  nodes : List DomNode
deriving Repr, DecidableEq

/-- Element lookup by identity. -/
def getNode (d : Dom) (i : Nat) : Option DomNode :=
  d.nodes.find? (fun n => n.nid = i)

/-- `node.parentElement`. -/
def parentOf (d : Dom) (i : Nat) : Option Nat :=
  match getNode d i with
  | none => none
  | some n => n.parent

/-- Applies `f` to the element with identity `i`. -/
def updateNode (d : Dom) (i : Nat) (f : DomNode → DomNode) : Dom :=
  ⟨d.nodes.map (fun n => if n.nid = i then f n else n)⟩

/-- `classList.add` on one node: appends the token unless already
present. -/
def addClassFn (c : String) (n : DomNode) : DomNode :=
  { n with classes := if n.classes.contains c then n.classes else n.classes ++ [c] }

/-- `classList.remove` on one node: drops the token. -/
def removeClassFn (c : String) (n : DomNode) : DomNode :=
  { n with classes := n.classes.filter (fun x => x ≠ c) }

/-- `classList.add`: appends the token unless already present. -/
def addClassAt (d : Dom) (i : Nat) (c : String) : Dom :=
  updateNode d i (addClassFn c)

/-- `classList.remove`: drops the token. -/
def removeClassAt (d : Dom) (i : Nat) (c : String) : Dom :=
  updateNode d i (removeClassFn c)

/-- Splits a character list at commas (kernel-computable `splitOn ","`). -/
def splitComma : List Char → List (List Char)
  | [] => [[]]
  | c :: rest =>
      let r := splitComma rest
      if c = ',' then [] :: r
      else
        match r with
        | [] => [[c]]
        | frag :: more => (c :: frag) :: more

/-- Class names of a comma-joined class selector: `.a,.b` yields
`["a", "b"]`; fragments not of the `.class` shape match nothing and are
dropped.  The engine only builds selectors of this shape
(`makeSelectorClassName`, `.${RULES.eventClass}`). -/
def selClasses (sel : String) : List String :=
  (splitComma sel.data).filterMap (fun frag =>
    match frag with
    | '.' :: rest => some (String.mk rest)
    | _ => none)

/-- `Element.matches(sel)` for class-OR selectors: some fragment class is
in the class list. -/
def matchesSel (sel : String) (classes : List String) : Bool :=
  (selClasses sel).any (fun c => classes.contains c)

/-- Whether the element with identity `i` matches `sel`. -/
def matchesNode (d : Dom) (sel : String) (i : Nat) : Bool :=
  match getNode d i with
  | none => false
  | some n => matchesSel sel n.classes

/-- Fuel to exhaust any acyclic parent chain of `d`. -/
def walkFuel (d : Dom) : Nat := d.nodes.length + 1

/-- Upward walk from an element (inclusive) to the first one satisfying
`p`, following parent pointers; `Element.closest` restricted to class
selectors. -/
def closestFrom (d : Dom) (p : DomNode → Bool) : Nat → Option Nat → Option DomNode
  | 0, _ => none
  | _ + 1, none => none
  | fuel + 1, some i =>
      match getNode d i with
      | none => none
      | some n => if p n then some n else closestFrom d p fuel n.parent

/-- `node.closest(sel)`. -/
def closestSel (d : Dom) (sel : String) (i : Nat) : Option DomNode :=
  closestFrom d (fun n => matchesSel sel n.classes) (walkFuel d) (some i)

/-- Whether `a` is reached by following parent pointers from `b`
(inclusively): `a.contains(b)`. -/
def containsFrom (d : Dom) (a : Nat) : Nat → Option Nat → Bool
  | 0, _ => false
  | _ + 1, none => false
  | fuel + 1, some i => if i = a then true else containsFrom d a fuel (parentOf d i)

/-- `a.contains(b)` (inclusive descendant test). -/
def containsNode (d : Dom) (a b : Nat) : Bool :=
  containsFrom d a (walkFuel d) (some b)

/-- `root.querySelectorAll(sel)`: the strict descendants of `root`
matching `sel`, in document order. -/
def querySelectorAll (d : Dom) (root : Nat) (sel : String) : List Nat :=
  (d.nodes.filter (fun n =>
    n.nid ≠ root && containsNode d root n.nid && matchesSel sel n.classes)).map (fun n => n.nid)

/-! ## Item data resolution -/

/-- Leading and trailing whitespace removal (kernel-computable
`String.trim` over the character list). -/
def trimChars (cs : List Char) : List Char :=
  ((cs.dropWhile Char.isWhitespace).reverse.dropWhile Char.isWhitespace).reverse

/-- `parseInt(s, 10)`: trims whitespace, accepts an optional sign and a
leading run of decimal digits; `none` models `NaN`. -/
def jsParseInt (s : String) : Option Int :=
  let core : Int × List Char :=
    match trimChars s.data with
    | '-' :: cs => (-1, cs)
    | '+' :: cs => (1, cs)
    | cs => (1, cs)
  let ds := core.2.takeWhile Char.isDigit
  if ds.isEmpty then none
  else some (core.1 * (ds.foldl (fun a c => a * 10 + (c.toNat - 48)) 0 : Nat))

/-- JS array indexing `viewData[index]` with an arbitrary integer index:
out-of-range and negative indices yield `undefined`, returned as-is. -/
def jsIndex (vd : List JsVal) (i : Int) : JsVal :=
  if i < 0 then .vundefined else vd.getD i.toNat .vundefined

/-- Embedding of `resolveItemData(node, viewData)` (utils.js lines
899-918): `closest` to the data-bind marker class, then the `_uiIndex`
fast path (`??`), falling back to `parseInt(dataset.index ?? "", 10)`;
an `NaN` index yields `{index: NaN, data: null}`.  The result is the pair
(index or `NaN`, data), with `.vnull` for `null`. -/
def resolveItemData (d : Dom) (node : Nat) (viewData : List JsVal) :
    Option Int × JsVal :=
  match closestSel d (makeSelectorClassName (.many []) (.many [RULES.dataBindClass])) node with
  | none => (none, .vnull)
  | some itemEl =>
      let index : Option Int :=
        match itemEl.uiIndex with
        | some j => j
        | none => jsParseInt (itemEl.datasetIndex.getD "")
      match index with
      | none => (none, .vnull)
      | some i => (some i, jsIndex viewData i)

/-! ## Event delegation engine

The engine state threads the pieces of mutable state the JS code keeps
for one root element: the document, the root's native listener list, the
`EVENT_STORE` entry (which `unbindEvents` reads but never deletes), and
the `currentActive` closure variable of the live `enableNearestHover`
registration.  Listener identity (needed by `removeEventListener`) is a
counter-assigned number. -/

/-- One entry of the `events` option list (an EventSpec).  Handlers are
opaque identifiers: the model records which handler is invoked with which
arguments. -/
structure ESpec where
  type : String
  selector : Option String
  handler : Nat
deriving Repr, DecidableEq

/-- Truthiness of `ev.selector` (`!ev.selector` sends the spec to the
selector-less list; an absent or empty selector is falsy). -/
def selTruthy : Option String → Bool
  | none => false
  | some s => s ≠ ""

/-- One recorded handler invocation
`handler(event, matchedElement, itemData, index, rootElement)`: the event
object itself is passed through unchanged and is not recorded. -/
structure HandlerCall where
  handler : Nat
  node : Nat
  data : JsVal
  index : Option Int
  root : Nat

/-- The behaviour of one native listener registered on the root: either a
per-type delegation listener (capturing its selector map, its
selector-less specs and the bound view data) or one of the two
`enableNearestHover` listeners. -/
inductive NativeBehavior where
  | deleg (selMap : List (String × List ESpec)) (elEvents : List ESpec)
      (viewData : List JsVal) : NativeBehavior
  | hoverOver : NativeBehavior
  | hoverOut : NativeBehavior

/-- A native listener currently registered on the root. -/
structure NativeEntry where
  etype : String
  lid : Nat
  behavior : NativeBehavior

/-- One `{type, listener, selectors}` record of the `EVENT_STORE` entry;
the hover listeners are stored without a `selectors` field. -/
structure StoredEntry where
  etype : String
  lid : Nat
  selectors : Option (List String)
deriving Repr, DecidableEq

/-- The engine state for one root element. -/
structure EngineState where
  dom : Dom
  root : Nat
  native : List NativeEntry
  store : Option (List StoredEntry)
  hoverActive : Option Nat
  nextId : Nat

/-- The state of a root element that has never been bound. -/
def initState (d : Dom) (root : Nat) : EngineState :=
  ⟨d, root, [], none, none, 0⟩

/-! ### unbindEvents -/

/-- Strips the discoverability marker class from every element of the
root's subtree matching `sel` (the `querySelectorAll` loop of
`unbindEvents`). -/
def stripMarker (d : Dom) (root : Nat) (sel : String) : Dom :=
  (querySelectorAll d root sel).foldl (fun dd i => removeClassAt dd i RULES.eventClass) d

/-- Processing of one stored `{type, listener, selectors}` record by
`unbindEvents`: remove that native listener, then strip the marker class
from the elements matching each recorded selector. -/
def unbindEntry (s : EngineState) (en : StoredEntry) : EngineState :=
  let s1 := { s with
    native := s.native.filter (fun ne => !(ne.etype = en.etype && ne.lid = en.lid)) }
  match en.selectors with
  | none => s1
  | some sels => sels.foldl (fun st sel => { st with dom := stripMarker st.dom st.root sel }) s1

/-- Embedding of `unbindEvents(el)` (utils.js lines 670-691): if the
`EVENT_STORE` has a record for the root, every stored listener is removed
and the marker classes stripped; the store entry itself is not deleted.
The `if (!el)` guard is outside this model, which fixes one root
element. -/
def unbindEvents (s : EngineState) : EngineState :=
  match s.store with
  | none => s
  | some entries => entries.foldl unbindEntry s

/-! ### bindEvents -/

/-- Event types in first-occurrence order: the key order of the
`events.reduce` grouping object (event types are non-index strings, for
which JS object key order is insertion order). -/
def typesInOrder (events : List ESpec) : List String :=
  events.foldl (fun acc e => if acc.contains e.type then acc else acc ++ [e.type]) []

/-- The specs of one type, in registration order. -/
def ofType (events : List ESpec) (t : String) : List ESpec :=
  events.filter (fun e => e.type = t)

/-- Appends a spec to its selector's bucket, keeping `Map` insertion
order of the keys. -/
def pushSel (m : List (String × List ESpec)) (sel : String) (ev : ESpec) :
    List (String × List ESpec) :=
  if m.any (fun p => p.1 = sel) then
    m.map (fun p => if p.1 = sel then (p.1, p.2 ++ [ev]) else p)
  else m ++ [(sel, [ev])]

/-- One step of the `eventList.forEach` loop of `bindEvents`: a spec with
a falsy selector goes to the selector-less list; otherwise it is added to
the selector map and the discoverability marker class is added to all
current `querySelectorAll` matches of its selector. -/
def buildGroupStep (root : Nat)
    (acc : (List (String × List ESpec)) × List ESpec × Dom) (ev : ESpec) :
    (List (String × List ESpec)) × List ESpec × Dom :=
  let m := acc.1
  let els := acc.2.1
  let d0 := acc.2.2
  match ev.selector with
  | none => (m, els ++ [ev], d0)
  | some sel =>
      if sel = "" then (m, els ++ [ev], d0)
      else
        let targets := querySelectorAll d0 root sel
        (pushSel m sel ev, els,
          targets.foldl (fun dd i => addClassAt dd i RULES.eventClass) d0)

/-- The `eventList.forEach` loop of `bindEvents` for one event type:
builds the selector map and the selector-less list, and adds the
discoverability marker class to all current `querySelectorAll` matches of
each selector. -/
def buildGroup (d : Dom) (root : Nat) (evl : List ESpec) :
    (List (String × List ESpec)) × List ESpec × Dom :=
  evl.foldl (buildGroupStep root) ([], [], d)

/-- The data of one per-type registration: type, listener identity,
selector map and selector-less specs. -/
structure GroupInfo where
  t : String
  lid : Nat
  selMap : List (String × List ESpec)
  elEvents : List ESpec

/-- The `Object.entries(grouped).forEach` loop: one group per distinct
type, assigning consecutive listener identities and threading the marker
additions through the document. -/
def buildGroups (d : Dom) (root : Nat) (events : List ESpec) (startId : Nat) :
    List GroupInfo × Dom :=
  (typesInOrder events).foldl (fun acc t =>
      let b := buildGroup acc.2 root (ofType events t)
      (acc.1 ++ [⟨t, startId + acc.1.length, b.1, b.2.1⟩], b.2.2))
    ([], d)

/-- Embedding of `enableNearestHover(el)` (utils.js lines 806-863) as far
as registration goes: adds the `mouseover` and `mouseout` listeners,
records them (without selectors) in the store entry, and starts a fresh
closure with `currentActive = null`.  The transition behaviour of the two
listeners is `hoverOverStep` and `hoverOutStep`. -/
def enableNearestHover (s : EngineState) : EngineState :=
  { s with
    native := s.native ++
      [⟨"mouseover", s.nextId, .hoverOver⟩, ⟨"mouseout", s.nextId + 1, .hoverOut⟩],
    store := some ((s.store.getD []) ++
      [⟨"mouseover", s.nextId, none⟩, ⟨"mouseout", s.nextId + 1, none⟩]),
    hoverActive := none,
    nextId := s.nextId + 2 }

/-- The body of `bindEvents` after the guard: unbind the existing record,
group the specs by type, register one delegation listener per distinct
type (marking the matching elements), set the store entry, then enable
the hover sub-engine. -/
def bindEventsCore (s : EngineState) (events : List ESpec) (viewData : List JsVal) :
    EngineState :=
  let s1 := unbindEvents s
  let gd := buildGroups s1.dom s1.root events s1.nextId
  let gs := gd.1
  enableNearestHover
    { s1 with
      dom := gd.2,
      native := s1.native ++ gs.map (fun g => ⟨g.t, g.lid, .deleg g.selMap g.elEvents viewData⟩),
      store := some (gs.map (fun g => ⟨g.t, g.lid, some (g.selMap.map (fun p => p.1))⟩)),
      nextId := s1.nextId + gs.length }

/-- Embedding of `bindEvents(el, events, viewData)` (utils.js lines
710-778).  The root argument is `Option Nat` to model the
`if (!el || !events.length) return` guard with a null root. -/
def bindEvents (s : EngineState) (el : Option Nat) (events : List ESpec)
    (viewData : List JsVal) : EngineState :=
  match el with
  | none => s
  | some _ =>
      if events.isEmpty then s
      else bindEventsCore s events viewData

/-! ### The delegation listener -/

/-- The `while (node && node !== el)` loop of the delegation listener:
walks up from the event target and returns the first element strictly
below the root that matches a registered selector, together with the
first such selector (in `Map` insertion order) and its specs. -/
def dispatchLoop (d : Dom) (el : Nat) (selMap : List (String × List ESpec)) :
    Nat → Option Nat → Option (Nat × String × List ESpec)
  | 0, _ => none
  | _ + 1, none => none
  | fuel + 1, some n =>
      if n = el then none
      else
        match selMap.find? (fun p => matchesNode d p.1 n) with
        | some hit => some (n, hit.1, hit.2)
        | none => dispatchLoop d el selMap fuel (parentOf d n)

/-- The full delegation listener body (utils.js lines 749-770): on a
match, resolve the item data once and invoke that selector's handlers in
registration order; otherwise invoke the selector-less handlers with
`(event, el, null, NaN, el)`. -/
def dispatchDelegation (d : Dom) (el : Nat) (selMap : List (String × List ESpec))
    (elEvents : List ESpec) (viewData : List JsVal) (target : Nat) : List HandlerCall :=
  match dispatchLoop d el selMap (walkFuel d) (some target) with
  | some hit =>
      let r := resolveItemData d hit.1 viewData
      hit.2.2.map (fun ev => ⟨ev.handler, hit.1, r.2, r.1, el⟩)
  | none => elEvents.map (fun ev => ⟨ev.handler, el, .vnull, none, el⟩)

/-! ### The hover listeners -/

/-- The `mouseOver` listener of `enableNearestHover`: find the nearest
marker-classed ancestor of the target; if it exists, lies inside the
root, and differs from `currentActive`, move the active class to it. -/
def hoverOverStep (d : Dom) (el : Nat) (ca : Option Nat) (target : Nat) :
    Dom × Option Nat :=
  match closestSel d ("." ++ RULES.eventClass) target with
  | none => (d, ca)
  | some tgt =>
      if !containsNode d el tgt.nid then (d, ca)
      else
        let d1 :=
          match ca with
          | some c => if c ≠ tgt.nid then removeClassAt d c RULES.eventActiveClass else d
          | none => d
        (addClassAt d1 tgt.nid RULES.eventActiveClass, some tgt.nid)

/-- The `mouseOut` listener of `enableNearestHover`: deactivate when the
pointer leaves the document, stays inside neither the active element nor
any other marker-classed region. -/
def hoverOutStep (d : Dom) (ca : Option Nat) (related : Option Nat) :
    Dom × Option Nat :=
  match ca with
  | none => (d, none)
  | some c =>
      match related with
      | none => (removeClassAt d c RULES.eventActiveClass, none)
      | some r =>
          if containsNode d c r then (d, some c)
          else
            match closestSel d ("." ++ RULES.eventClass) r with
            | some _ => (d, some c)
            | none => (removeClassAt d c RULES.eventActiveClass, none)

/-! ### Native event delivery -/

/-- A native event as seen by the root's listeners: type, target and (for
`mouseout`) the related destination element. -/
structure NativeEvent where
  etype : String
  target : Nat
  related : Option Nat
deriving Repr, DecidableEq

/-- Runs one native listener's behaviour. -/
def runBehavior (s : EngineState) (b : NativeBehavior) (ev : NativeEvent) :
    EngineState × List HandlerCall :=
  match b with
  | .deleg selMap elEvents vd =>
      (s, dispatchDelegation s.dom s.root selMap elEvents vd ev.target)
  | .hoverOver =>
      let r := hoverOverStep s.dom s.root s.hoverActive ev.target
      ({ s with dom := r.1, hoverActive := r.2 }, [])
  | .hoverOut =>
      let r := hoverOutStep s.dom s.hoverActive ev.related
      ({ s with dom := r.1, hoverActive := r.2 }, [])

/-- Delivery of one native event to one registered listener: listeners of
other types are skipped. -/
def deliverStep (ev : NativeEvent) (acc : EngineState × List HandlerCall)
    (ne : NativeEntry) : EngineState × List HandlerCall :=
  if ne.etype = ev.etype then
    let r := runBehavior acc.1 ne.behavior ev
    (r.1, acc.2 ++ r.2)
  else acc

/-- Delivery of one native event to the root: every registered listener
of the event's type runs, in registration order, accumulating the handler
invocations. -/
def deliverEvent (s : EngineState) (ev : NativeEvent) :
    EngineState × List HandlerCall :=
  s.native.foldl (deliverStep ev) (s, [])

/-! ### Operation sequences -/

/-- The operations a component can perform on its root. -/
inductive Op where
  | bind (events : List ESpec) (viewData : List JsVal) : Op
  | unbind : Op
  | deliver (ev : NativeEvent) : Op

/-- Applies one operation. -/
def applyOp (s : EngineState) : Op → EngineState
  | .bind events vd => bindEvents s (some s.root) events vd
  | .unbind => unbindEvents s
  | .deliver ev => (deliverEvent s ev).1

/-- Runs a sequence of operations. -/
def runOps (s : EngineState) (ops : List Op) : EngineState :=
  ops.foldl applyOp s

/-- Number of native listeners currently registered on the root for one
event type. -/
def countListeners (s : EngineState) (t : String) : Nat :=
  (s.native.filter (fun ne => ne.etype = t)).length

/-! ## Renderers: schema mapping and the render entry points -/

/-- One schema field: either a mapping function (applied to the raw
record and the key) or a literal copied into every view record. -/
inductive SchemaField where
  | fn (f : JsVal → String → JsVal) : SchemaField
  | lit (v : JsVal) : SchemaField

/-- Embedding of `createMapper(schema)` (utils.js lines 543-555): maps a
raw record to a view record field by field. -/
def createMapper (schema : List (String × SchemaField)) (data : JsVal) : JsVal :=
  mkObj (schema.map (fun kv =>
    (kv.1, match kv.2 with
           | .fn f => f data kv.1
           | .lit v => v)))

/-- The data-preprocessing step of `PanelRender.render` (PanelRender.js
lines 42-48): without a schema the raw data is passed through unchanged
(note: without the `size` cap); with a schema the first `size` records
are mapped. -/
def panelViewData (schema : Option (List (String × SchemaField)))
    (data : List JsVal) (size : Nat) : List JsVal :=
  match schema with
  | none => data
  | some sch => (data.take size).map (createMapper sch)

/-- The data-preprocessing step of `ListView.draw` (listView.js lines
362-369): both paths cap the data at `options.size`. -/
def listViewViewData (schema : Option (List (String × SchemaField)))
    (data : List JsVal) (size : Nat) : List JsVal :=
  match schema with
  | none => data.take size
  | some sch => (data.take size).map (createMapper sch)

/-- A document's id registry: `document.getElementById` lookup table from
element id strings to elements. -/
def getElementById (doc : List (String × Nat)) (i : String) : Option Nat :=
  match doc.find? (fun p => p.1 = i) with
  | none => none
  | some p => some p.2

/-- The error thrown by the render entry points when the root element is
missing.  It is the only error in this model: the rendering itself cannot
fail here. -/
inductive RenderError where
  | notFound (msg : String) : RenderError
deriving Repr, DecidableEq

/-- The root lookup and data-preprocessing stage of `PanelRender.render`
(PanelRender.js lines 23-48): throws synchronously when no element with
`panelId` exists, otherwise renders using the computed view data. -/
def panelRenderStep (doc : List (String × Nat)) (panelId : String)
    (data : List JsVal) (schema : Option (List (String × SchemaField)))
    (size : Nat) : Except RenderError (Nat × List JsVal) :=
  match getElementById doc panelId with
  | none => .error (.notFound ("No panel element with id " ++ panelId))
  | some el => .ok (el, panelViewData schema data size)

/-- The root lookup of `ListView.init` (listView.js lines 307-316):
throws synchronously when no element with the configured id exists. -/
def listViewInitStep (doc : List (String × Nat)) (id : String) :
    Except RenderError Nat :=
  match getElementById doc id with
  | none => .error (.notFound ("No listView element with id " ++ id))
  | some el => .ok el

/-! ## Spec-side definitions

The following definitions restate, in the spec's own words, behaviours
that the claims attribute to the code; the theorems compare them with the
definitions translated from the source. -/

/-- Per the claim for `makeSelectorClassName`: the same operation but
with falsy tokens dropped silently from the prefixed list as well. -/
def makeSelectorClassNameDropping (prefixed raw : StrOrList) : String :=
  let prefArr := toArr prefixed
  let rawArr := toArr raw
  let prefSelectors := (prefArr.filter strTruthy).map
    (fun n => "." ++ makeClassName (.many [n]) (.many []))
  let rawSelectors := (rawArr.filter strTruthy).map (fun n => "." ++ n)
  String.intercalate "," (prefSelectors ++ rawSelectors)

/-- Per the claim for event dispatch: the nodes from the event target
(inclusive) up through its ancestors strictly below the root, innermost
first. -/
def ancestorsBelow (d : Dom) (el : Nat) : Nat → Option Nat → List Nat
  | 0, _ => []
  | _ + 1, none => []
  | fuel + 1, some n =>
      if n = el then [] else n :: ancestorsBelow d el fuel (parentOf d n)

/-- Per the claim: the first (innermost) node of the path matching any
registered selector, with the first matching selector and its specs. -/
def firstHit (d : Dom) (selMap : List (String × List ESpec)) :
    List Nat → Option (Nat × String × List ESpec)
  | [] => none
  | n :: rest =>
      match selMap.find? (fun p => matchesNode d p.1 n) with
      | some hit => some (n, hit.1, hit.2)
      | none => firstHit d selMap rest

/-- Per the claim: dispatch of one native event.  The first matching node
on the ancestor path receives every handler of the matched selector (in
registration order) with the resolved item data; if no node matches, the
selector-less specs are invoked with `(event, root, null, NaN, root)`. -/
def dispatchClaim (d : Dom) (el : Nat) (selMap : List (String × List ESpec))
    (elEvents : List ESpec) (viewData : List JsVal) (target : Nat) : List HandlerCall :=
  match firstHit d selMap (ancestorsBelow d el (walkFuel d) (some target)) with
  | some hit =>
      let r := resolveItemData d hit.1 viewData
      hit.2.2.map (fun ev => ⟨ev.handler, hit.1, r.2, r.1, el⟩)
  | none => elEvents.map (fun ev => ⟨ev.handler, el, .vnull, none, el⟩)

/-- Per claim C3: the nearest ancestor (inclusive) carrying the data-bind
marker class, found by walking parent pointers. -/
def nearestBindAncestor (d : Dom) (i : Nat) : Option DomNode :=
  closestFrom d (fun n => n.classes.contains RULES.dataBindClass) (walkFuel d) (some i)

/-- Per claim C3: item-data resolution described directly on the marker
class: nearest marker ancestor, fast-path index, textual-attribute
fallback, `NaN` guard, then `viewData[index]` as-is. -/
def resolveItemDataClaim (d : Dom) (node : Nat) (viewData : List JsVal) :
    Option Int × JsVal :=
  match nearestBindAncestor d node with
  | none => (none, .vnull)
  | some itemEl =>
      let index : Option Int :=
        match itemEl.uiIndex with
        | some j => j
        | none => jsParseInt (itemEl.datasetIndex.getD "")
      match index with
      | none => (none, .vnull)
      | some i => (some i, jsIndex viewData i)

/-! ## Derived views of the engine used by the theorems -/

/-- The selector-map contribution of one spec (the document-independent
part of `buildGroupStep`). -/
def selStep (m : List (String × List ESpec)) (ev : ESpec) :
    List (String × List ESpec) :=
  match ev.selector with
  | none => m
  | some sel => if sel = "" then m else pushSel m sel ev

/-- The selector map the `eventList.forEach` loop of `bindEvents` builds
for one type's specs (independent of the document). -/
def selMapOf (evl : List ESpec) : List (String × List ESpec) :=
  evl.foldl selStep []

/-- The selector-less specs of one type, in registration order. -/
def elEventsOf (evl : List ESpec) : List ESpec :=
  evl.filter (fun ev => !selTruthy ev.selector)

/-- The truthy selectors occurring in a spec list, in occurrence order
(with repetitions). -/
def selectorsOf (events : List ESpec) : List String :=
  events.filterMap (fun ev =>
    match ev.selector with
    | none => none
    | some sel => if sel = "" then none else some sel)

/-- Every native listener on the root is covered by the store record
(true in every engine-reachable state; `unbindEvents` removes exactly the
stored listeners, so coverage makes a rebind start from a clean slate). -/
def storeCoversNative (s : EngineState) : Prop :=
  ∀ ne ∈ s.native,
    ((s.store.getD []).any (fun en => en.etype = ne.etype && en.lid = ne.lid)) = true

/-- No element of the document carries the discoverability marker class
(the state of a freshly rendered subtree). -/
def noEventClass (d : Dom) : Prop :=
  ∀ n ∈ d.nodes, n.classes.contains RULES.eventClass = false

/-- The event-spec list of the most recent effective bind: `none` after
an unbind or before any bind; guarded binds (empty list) do not count. -/
def lastEff (acc : Option (List ESpec)) : List Op → Option (List ESpec)
  | [] => acc
  | op :: rest =>
      lastEff
        (match op with
         | .bind events _ => if events.isEmpty then acc else some events
         | .unbind => none
         | .deliver _ => acc)
        rest

/-- The listener count claim C1 actually satisfied by the code: one
delegation listener per distinct bound type, plus the hover sub-engine's
own `mouseover` and `mouseout` listeners. -/
def expectedCount (events : List ESpec) (t : String) : Nat :=
  (if (typesInOrder events).contains t then 1 else 0)
    + (if t = "mouseover" then 1 else 0)
    + (if t = "mouseout" then 1 else 0)

/-- Whether the element with identity `i` exists and lacks the data-bind
marker class (the shape of the nodes strictly between a click target and
its item boundary). -/
def nonMarkerNode (d : Dom) (i : Nat) : Bool :=
  match getNode d i with
  | none => false
  | some n => !(n.classes.contains RULES.dataBindClass)

/-- Whether consecutive elements of the list are linked by parent
pointers. -/
def parentChainB (d : Dom) : List Nat → Bool
  | [] => true
  | [_] => true
  | a :: b :: rest => parentOf d a = some b && parentChainB d (b :: rest)

/-- At most one element carries the hover active class, and it is the one
`currentActive` points to. -/
def activeOnlyCurrent (d : Dom) (ca : Option Nat) : Prop :=
  ∀ n ∈ d.nodes, n.classes.contains RULES.eventActiveClass = true → ca = some n.nid

/-- A pointer event as seen by the hover sub-engine. -/
inductive HoverEv where
  | over (target : Nat) : HoverEv
  | out (related : Option Nat) : HoverEv

/-- One transition of the hover state machine (the pair of listeners
`enableNearestHover` registers, sharing the `currentActive` variable). -/
def hoverStep (el : Nat) (p : Dom × Option Nat) : HoverEv → Dom × Option Nat
  | .over target => hoverOverStep p.1 el p.2 target
  | .out related => hoverOutStep p.1 p.2 related

/-- A sequence of pointer events processed by the hover sub-engine. -/
def runHover (el : Nat) (p : Dom × Option Nat) (evs : List HoverEv) :
    Dom × Option Nat :=
  evs.foldl (hoverStep el) p

/-- Every marked element can be re-found at unbind time: it lies strictly
under the root and matches some selector of `S` through a class other
than the marker class itself (so the match is immune to marker
stripping).  `bindEvents` establishes this for the selectors it stores,
and `unbindEvents`' stripping loop preserves it for the selectors still
to be processed. -/
def markedOK (d : Dom) (root : Nat) (S : List String) : Prop :=
  ∀ n ∈ d.nodes, n.classes.contains RULES.eventClass = true →
    containsNode d root n.nid = true ∧ n.nid ≠ root
    ∧ ∃ sel ∈ S, ∃ c ∈ selClasses sel,
        c ≠ RULES.eventClass ∧ n.classes.contains c = true

/-- The selectors recorded across all entries of a store record, in
processing order. -/
def allSelectors (entries : List StoredEntry) : List String :=
  entries.flatMap (fun en => en.selectors.getD [])

/-- The keys of an object's fields, in order. -/
def fieldKeys : JsFields → List String
  | .fnil => []
  | .fcons k _ rest => k :: fieldKeys rest

/-- Example document for the witnesses: a root (identity 0) containing an
outer rendered item (identity 1, index 0), an inner rendered item
(identity 2, index 1) nested inside it, and a deeply nested plain child
(identity 3) of the inner item.  Both items carry the selector class "a"
and the data-bind marker class. -/
def exListDom : Dom :=
  ⟨[⟨0, none, [], none, none⟩,
    ⟨1, some 0, ["a", "data-bind-item"], some "0", some (some 0)⟩,
    ⟨2, some 1, ["a", "data-bind-item"], some "1", some (some 1)⟩,
    ⟨3, some 2, [], none, none⟩]⟩

/-- Example document for the hover counterexample: a marker-classed
element (identity 0) *outside* (above) the root (identity 1), and a plain
child (identity 2) of the root. -/
def exOuterMarkerDom : Dom :=
  ⟨[⟨0, none, ["dh-event"], none, none⟩,
    ⟨1, some 0, [], none, none⟩,
    ⟨2, some 1, [], none, none⟩]⟩

/-- Example document for the hover witness: a root (identity 0) with two
marker-classed items (identities 1 and 2) and a nested child (identity 3)
of item 1. -/
def exHoverDom : Dom :=
  ⟨[⟨0, none, [], none, none⟩,
    ⟨1, some 0, ["dh-event"], none, none⟩,
    ⟨2, some 0, ["dh-event"], none, none⟩,
    ⟨3, some 1, [], none, none⟩]⟩

/-- Example raw data of six records. -/
def exRecords6 : List JsVal :=
  [.vnum 0, .vnum 1, .vnum 2, .vnum 3, .vnum 4, .vnum 5]

/-! # Theorems -/

/-! ## Option merger (C4) -/

theorem JsFields.structuralInduction (motive : JsFields → Prop)
    (base : motive .fnil)
    (step : ∀ k v rest, motive rest → motive (.fcons k v rest)) :
    ∀ fs, motive fs
  | .fnil => base
  | .fcons k v rest => step k v rest (JsFields.structuralInduction motive base step rest)

theorem getField_setField_self (fs : JsFields) (key : String) (v : JsVal) :
    getField (setField fs key v) key = some v := by
  induction fs using JsFields.structuralInduction with
  | base => simp [setField, getField]
  | step k w rest ih =>
      by_cases h : k = key <;> simp [setField, getField, h, ih]

theorem getField_setField_ne (fs : JsFields) (key key' : String) (v : JsVal)
    (h : key ≠ key') : getField (setField fs key v) key' = getField fs key' := by
  induction fs using JsFields.structuralInduction with
  | base => simp [setField, getField, h]
  | step k w rest ih =>
      by_cases hk : k = key
      · subst hk
        simp [setField, getField, h]
      · simp [setField, getField, hk, ih]

theorem getField_eq_none_of_not_mem (fs : JsFields) (key : String)
    (h : key ∉ fieldKeys fs) : getField fs key = none := by
  induction fs using JsFields.structuralInduction with
  | base => simp [getField]
  | step k w rest ih =>
      simp only [fieldKeys, List.mem_cons, not_or] at h
      simp [getField, Ne.symm h.1, ih h.2]

theorem deepMergeFields_getField (tf sf : JsFields) :
    ∀ (acc : JsFields) (key : String), (fieldKeys sf).Nodup →
    getField (deepMergeFields tf sf acc) key =
      match getField sf key with
      | some sv =>
          some (if isPlainMapping sv then deepMerge (jsOrEmpty (getField tf key)) sv else sv)
      | none => getField acc key := by
  induction sf using JsFields.structuralInduction with
  | base => intro acc key _; simp [deepMergeFields, getField]
  | step k sv rest ih =>
      intro acc key hnd
      have hnd' : (fieldKeys rest).Nodup := by
        have hc : (k :: fieldKeys rest).Nodup := hnd
        exact hc.of_cons
      have hk : k ∉ fieldKeys rest := by
        have hc : (k :: fieldKeys rest).Nodup := hnd
        exact (List.nodup_cons.mp hc).1
      have hcons : deepMergeFields tf (.fcons k sv rest) acc
          = deepMergeFields tf rest
              (setField acc k
                (if isPlainMapping sv then deepMerge (jsOrEmpty (getField tf k)) sv else sv)) := by
        cases sv <;> rfl
      by_cases h : k = key
      · subst h
        rw [hcons, ih _ k hnd', getField_eq_none_of_not_mem rest k hk]
        simp [getField, getField_setField_self]
      · rw [hcons, ih _ key hnd']
        cases hrest : getField rest key with
        | some sv' => simp [hrest, getField, h]
        | none => simp [hrest, getField, h, getField_setField_ne _ _ _ _ h]

/-- Claim C4: `deepMerge` merges plain mappings recursively, overwrites
every other value (arrays wholesale), treats an absent target mapping as
empty, and produces the two example results; the function is pure, so
neither input is mutated (the JS code only writes into the freshly spread
result object). -/
theorem deepMerge_merges_mappings_and_overwrites_rest :
    (deepMerge (mkObj [("a", mkObj [("x", .vnum 1), ("y", .vnum 2)])])
       (mkObj [("a", mkObj [("y", .vnum 9), ("z", .vnum 3)])])
      = mkObj [("a", mkObj [("x", .vnum 1), ("y", .vnum 9), ("z", .vnum 3)])])
  ∧ (deepMerge (mkObj [("arr", mkArr [.vnum 1, .vnum 2])])
       (mkObj [("arr", mkArr [.vnum 9])])
      = mkObj [("arr", mkArr [.vnum 9])])
  ∧ ∀ (tf sf : JsFields) (key : String), (fieldKeys sf).Nodup →
      getField (objFields (deepMerge (.vobj tf) (.vobj sf))) key =
        match getField sf key with
        | some sv =>
            some (if isPlainMapping sv then deepMerge (jsOrEmpty (getField tf key)) sv
                  else sv)
        | none => getField tf key := by
  refine ⟨rfl, rfl, fun tf sf key hnd => ?_⟩
  show getField (deepMergeFields tf sf tf) key = _
  rw [deepMergeFields_getField tf sf tf key hnd]

/-- Witness for C4: the general per-key rule applied to the claim's first
example at key "a". -/
theorem deepMerge_merges_mappings_and_overwrites_rest_witness :
    (fieldKeys (mkFields [("a", mkObj [("y", .vnum 9), ("z", .vnum 3)])])).Nodup
  ∧ getField (objFields (deepMerge
      (.vobj (mkFields [("a", mkObj [("x", .vnum 1), ("y", .vnum 2)])]))
      (.vobj (mkFields [("a", mkObj [("y", .vnum 9), ("z", .vnum 3)])])))) "a"
      = some (mkObj [("x", .vnum 1), ("y", .vnum 9), ("z", .vnum 3)]) :=
  ⟨by decide, by
    rw [deepMerge_merges_mappings_and_overwrites_rest.2.2 _ _ "a" (by decide)]
    rfl⟩

/-! ## View data preprocessing (C5) -/

/-- Claim C5 (code bug): with no schema, `PanelRender.render` passes the
raw data through *without* the configured size cap (six records survive a
cap of five), while `ListView.draw` does cap; with a schema both map the
first `size` records through the per-field functions/literals. -/
theorem panel_no_schema_size_cap_missing :
    panelViewData none exRecords6 5 = exRecords6
  ∧ (panelViewData none exRecords6 5).length = 6
  ∧ listViewViewData none exRecords6 5 = [.vnum 0, .vnum 1, .vnum 2, .vnum 3, .vnum 4]
  ∧ panelViewData (some [("title", .fn (fun dv _ => dv)), ("tag", .lit (.vstr "x"))])
      exRecords6 2
      = [mkObj [("title", .vnum 0), ("tag", .vstr "x")],
         mkObj [("title", .vnum 1), ("tag", .vstr "x")]] :=
  ⟨rfl, rfl, rfl, rfl⟩

/-! ## Class-name builders (C6) -/

/-- Counterexample to claim C6 as stated: a falsy prefixed token is *not*
dropped by `makeSelectorClassName`; it yields a bare "." fragment, unlike
the claim's dropping rule. -/
theorem makeSelector_falsy_prefixed_not_dropped :
    makeSelectorClassName (.many ["", "panel-item"]) (.many []) = ".,.dh-panel-item"
  ∧ makeSelectorClassNameDropping (.many ["", "panel-item"]) (.many []) = ".dh-panel-item"
  ∧ (".,.dh-panel-item" : String) ≠ ".dh-panel-item" :=
  ⟨rfl, rfl, by decide⟩

theorem makeClassName_single (n : String) :
    makeClassName (.many [n]) (.many [])
      = if n = "" then "" else RULES.classPfx ++ "-" ++ n := by
  by_cases h : n = "" <;>
    simp [makeClassName, toArr, strTruthy, h, String.intercalate, String.intercalate.go]

/-- Claim C6, amended: both builders use the namespace prefix and produce
the claimed example strings; falsy tokens are dropped by `makeClassName`
(both lists) and by `makeSelectorClassName` for raw tokens, but a falsy
*prefixed* token of `makeSelectorClassName` is kept as a bare "."
fragment. -/
theorem className_builders_spec :
    makeClassName (.many ["panel"]) (.many ["active"]) = "dh-panel active"
  ∧ makeSelectorClassName (.many ["panel-item", "panel-header"]) (.many [])
      = ".dh-panel-item,.dh-panel-header"
  ∧ (∀ ps rs, makeClassName (.many ("" :: ps)) (.many rs)
      = makeClassName (.many ps) (.many rs))
  ∧ (∀ ps rs, makeClassName (.many ps) (.many ("" :: rs))
      = makeClassName (.many ps) (.many rs))
  ∧ (∀ ps rs, makeSelectorClassName (.many ps) (.many ("" :: rs))
      = makeSelectorClassName (.many ps) (.many rs))
  ∧ (∀ ps rs, makeSelectorClassName (.many ps) rs
      = String.intercalate ","
          (ps.map (fun n => if n = "" then "." else "." ++ RULES.classPfx ++ "-" ++ n)
            ++ ((toArr rs).filter strTruthy).map (fun n => "." ++ n))) := by
  refine ⟨rfl, rfl, ?_, ?_, ?_, ?_⟩
  · intro ps rs; simp [makeClassName, toArr, strTruthy]
  · intro ps rs; simp [makeClassName, toArr, strTruthy]
  · intro ps rs; simp [makeSelectorClassName, toArr, strTruthy]
  · intro ps rs
    simp only [makeSelectorClassName, toArr]
    congr 1
    refine congrArg (· ++ _) ?_
    refine List.map_congr_left fun n _ => ?_
    rw [makeClassName_single]
    by_cases h : n = "" <;> simp [h, String.append_assoc]

/-! ## Render entry points (C9) -/

/-- Claim C9: each render entry point fails synchronously with the
NotFound-style error exactly when no element with the given id exists in
the document; when the element exists no such error is thrown (the call
proceeds with the looked-up root). -/
theorem render_throws_iff_root_missing :
    (∀ doc pid data schema size,
      (panelRenderStep doc pid data schema size
          = .error (.notFound ("No panel element with id " ++ pid))
        ↔ getElementById doc pid = none))
  ∧ (∀ doc id,
      (listViewInitStep doc id
          = .error (.notFound ("No listView element with id " ++ id))
        ↔ getElementById doc id = none)) := by
  constructor
  · intro doc pid data schema size
    cases h : getElementById doc pid <;> simp [panelRenderStep, h]
  · intro doc id
    cases h : getElementById doc id <;> simp [listViewInitStep, h]

/-! ## Item data resolution (C3) -/

theorem matchesSel_dataBind (cs : List String) :
    matchesSel (makeSelectorClassName (.many []) (.many [RULES.dataBindClass])) cs
      = cs.contains RULES.dataBindClass := by
  show (["data-bind-item"].any fun c => cs.contains c) = cs.contains "data-bind-item"
  simp

theorem closestFrom_congr (d : Dom) (p q : DomNode → Bool)
    (hpq : ∀ n, p n = q n) :
    ∀ fuel o, closestFrom d p fuel o = closestFrom d q fuel o := by
  intro fuel
  induction fuel with
  | zero => intro o; rfl
  | succ f ih =>
      intro o
      cases o with
      | none => rfl
      | some i =>
          cases hg : getNode d i with
          | none => simp [closestFrom, hg]
          | some n => simp [closestFrom, hg, hpq n, ih]

theorem closestFrom_along_chain (d : Dom) (p : DomNode → Bool) (item : DomNode)
    (hitem : getNode d item.nid = some item) (hp : p item = true) :
    ∀ (mids : List Nat) (target : Nat) (fuel : Nat),
      parentChainB d (target :: mids ++ [item.nid]) = true →
      (∀ i ∈ target :: mids, (getNode d i).any (fun n => !p n) = true) →
      mids.length + 2 ≤ fuel →
      closestFrom d p fuel (some target) = some item := by
  intro mids
  induction mids with
  | nil =>
      intro target fuel hchain hnon hfuel
      obtain ⟨f, rfl⟩ : ∃ f, fuel = f + 2 := ⟨fuel - 2, by omega⟩
      have htn := hnon target (by simp)
      cases hg : getNode d target with
      | none => rw [hg] at htn; simp [Option.any] at htn
      | some tn =>
          rw [hg] at htn
          simp only [Option.any] at htn
          have hpt : p tn = false := by
            cases hcase : p tn <;> simp [hcase] at htn ⊢
          have hpar : tn.parent = some item.nid := by
            have hc : (parentOf d target = some item.nid) := by
              simp only [parentChainB, List.nil_append, Bool.and_eq_true,
                decide_eq_true_eq] at hchain
              exact hchain.1
            simpa [parentOf, hg] using hc
          show closestFrom d p (f + 1 + 1) (some target) = some item
          rw [closestFrom, hg]
          simp only [hpt, if_neg (by simp : ¬ (false = true))]
          rw [hpar]
          show closestFrom d p (f + 1) (some item.nid) = some item
          rw [closestFrom, hitem]
          simp [hp]
  | cons m rest ih =>
      intro target fuel hchain hnon hfuel
      obtain ⟨f, rfl⟩ : ∃ f, fuel = f + 1 := ⟨fuel - 1, by omega⟩
      have htn := hnon target (by simp)
      cases hg : getNode d target with
      | none => rw [hg] at htn; simp [Option.any] at htn
      | some tn =>
          rw [hg] at htn
          simp only [Option.any] at htn
          have hpt : p tn = false := by
            cases hcase : p tn <;> simp [hcase] at htn ⊢
          have hpar : tn.parent = some m := by
            have hc : parentOf d target = some m := by
              simp only [parentChainB, List.cons_append, Bool.and_eq_true,
                decide_eq_true_eq] at hchain
              exact hchain.1
            simpa [parentOf, hg] using hc
          have hchain' : parentChainB d (m :: rest ++ [item.nid]) = true := by
            simp only [parentChainB, List.cons_append, Bool.and_eq_true,
              decide_eq_true_eq] at hchain
            exact hchain.2
          rw [closestFrom, hg]
          simp only [hpt, if_neg (by simp : ¬ (false = true))]
          rw [hpar]
          exact ih m f hchain'
            (fun i hi => hnon i (by simp only [List.mem_cons] at hi ⊢; tauto))
            (by simpa using Nat.le_of_succ_le_succ hfuel)

/-- Claim C3: `resolveItemData` equals the claim's recipe — nearest
marker-classed ancestor (inclusive), `{NaN, null}` when absent, fast-path
index else parsed attribute, `{NaN, null}` on `NaN`, else
`{index, viewData[index]}` as-is — and, for a rendered item at index `k`,
a click on an arbitrarily deeply nested descendant of item `k` resolves
to index `k` and the corresponding view-data record. -/
theorem resolveItemData_spec :
    (∀ d node vd, resolveItemData d node vd = resolveItemDataClaim d node vd)
  ∧ (∀ (d : Dom) (vd : List JsVal) (k : Nat) (target : Nat) (mids : List Nat)
       (item : DomNode),
      getNode d item.nid = some item →
      item.classes.contains RULES.dataBindClass = true →
      item.uiIndex = some (some (k : Int)) →
      parentChainB d (target :: mids ++ [item.nid]) = true →
      (∀ i ∈ target :: mids, nonMarkerNode d i = true) →
      mids.length + 2 ≤ walkFuel d →
      k < vd.length →
      resolveItemData d target vd = (some (k : Int), vd.getD k .vundefined)) := by
  have key : ∀ d node vd, resolveItemData d node vd = resolveItemDataClaim d node vd := by
    intro d node vd
    simp only [resolveItemData, resolveItemDataClaim, nearestBindAncestor, closestSel]
    rw [closestFrom_congr d _ _ (fun n => matchesSel_dataBind n.classes)]
  refine ⟨key, fun d vd k target mids item hitem hmark hui hchain hnon hfuel hk => ?_⟩
  rw [key]
  have hclosest :
      closestFrom d (fun n => n.classes.contains RULES.dataBindClass)
        (walkFuel d) (some target) = some item := by
    refine closestFrom_along_chain d _ item hitem hmark mids target (walkFuel d)
      hchain ?_ hfuel
    intro i hi
    have := hnon i hi
    simp only [nonMarkerNode] at this
    cases hg : getNode d i with
    | none => rw [hg] at this; exact absurd this (by simp)
    | some n =>
        rw [hg] at this
        simp only [Option.any]
        simpa using this
  simp only [resolveItemDataClaim, nearestBindAncestor, hclosest, hui, jsIndex]
  simp [Int.toNat_natCast]

/-! ## bindEvents guard (C10) -/

/-- Witness for C3: in the example document, a click on the deeply nested
child (identity 3) of the inner item (identity 2, index 1) resolves to
index 1 and the second view-data record. -/
theorem resolveItemData_spec_witness :
    parentChainB exListDom [3, 2] = true
    ∧ resolveItemData exListDom 3 [.vnum 10, .vnum 20] = (some 1, .vnum 20) := by
  refine ⟨by decide, ?_⟩
  have h := resolveItemData_spec.2 exListDom [.vnum 10, .vnum 20] 1 3 []
    ⟨2, some 1, ["a", "data-bind-item"], some "1", some (some 1)⟩
    (by decide) (by decide) (by decide) (by decide) (by decide) (by decide) (by decide)
  exact h.trans rfl

/-! ## Engine structure lemmas -/

theorem buildGroup_components (root : Nat) (evl : List ESpec) :
    ∀ (m : List (String × List ESpec)) (els : List ESpec) (d : Dom),
      (evl.foldl (buildGroupStep root) (m, els, d)).1 = evl.foldl selStep m
      ∧ (evl.foldl (buildGroupStep root) (m, els, d)).2.1 = els ++ elEventsOf evl := by
  induction evl with
  | nil => intro m els d; simp [elEventsOf]
  | cons ev rest ih =>
      intro m els d
      cases hsel : ev.selector with
      | none =>
          have := ih m (els ++ [ev]) d
          simpa [buildGroupStep, selStep, hsel, elEventsOf, selTruthy] using this
      | some sel =>
          by_cases hz : sel = ""
          · have := ih m (els ++ [ev]) d
            simpa [buildGroupStep, selStep, hsel, hz, elEventsOf, selTruthy] using this
          · have := ih (pushSel m sel ev) els
              ((querySelectorAll d root sel).foldl
                (fun dd i => addClassAt dd i RULES.eventClass) d)
            simpa [buildGroupStep, selStep, hsel, hz, elEventsOf, selTruthy] using this

theorem buildGroup_fst (d : Dom) (root : Nat) (evl : List ESpec) :
    (buildGroup d root evl).1 = selMapOf evl :=
  (buildGroup_components root evl [] [] d).1

theorem buildGroup_snd (d : Dom) (root : Nat) (evl : List ESpec) :
    (buildGroup d root evl).2.1 = elEventsOf evl := by
  simpa using (buildGroup_components root evl [] [] d).2

theorem buildGroups_types (root : Nat) (events : List ESpec) (startId : Nat) :
    ∀ (ts : List String) (gs : List GroupInfo) (d : Dom),
      ((ts.foldl (fun acc t =>
          let b := buildGroup acc.2 root (ofType events t)
          (acc.1 ++ [⟨t, startId + acc.1.length, b.1, b.2.1⟩], b.2.2))
        (gs, d)).1).map (fun g => g.t) = gs.map (fun g => g.t) ++ ts := by
  intro ts
  induction ts with
  | nil => intro gs d; simp
  | cons t rest ih =>
      intro gs d
      rw [List.foldl_cons, ih]
      simp

theorem buildGroups_property (root : Nat) (events : List ESpec) (startId : Nat) :
    ∀ (ts : List String) (gs : List GroupInfo) (d : Dom),
      (∀ g ∈ gs, g.selMap = selMapOf (ofType events g.t)
        ∧ g.elEvents = elEventsOf (ofType events g.t)) →
      ∀ g ∈ (ts.foldl (fun acc t =>
          let b := buildGroup acc.2 root (ofType events t)
          (acc.1 ++ [⟨t, startId + acc.1.length, b.1, b.2.1⟩], b.2.2))
        (gs, d)).1,
        g.selMap = selMapOf (ofType events g.t)
        ∧ g.elEvents = elEventsOf (ofType events g.t) := by
  intro ts
  induction ts with
  | nil => intro gs d h; simpa using h
  | cons t rest ih =>
      intro gs d h
      rw [List.foldl_cons]
      refine ih _ _ ?_
      intro g hg
      rcases List.mem_append.mp hg with hg | hg
      · exact h g hg
      · have hgeq : g = ⟨t, startId + gs.length,
            (buildGroup d root (ofType events t)).1,
            (buildGroup d root (ofType events t)).2.1⟩ := by
          simpa using hg
        subst hgeq
        simp [buildGroup_fst, buildGroup_snd]

theorem typesInOrder_go_nodup (events : List ESpec) :
    ∀ (l : List ESpec) (acc : List String), acc.Nodup →
      (l.foldl (fun acc e => if acc.contains e.type then acc else acc ++ [e.type]) acc).Nodup := by
  intro l
  induction l with
  | nil => intro acc h; simpa using h
  | cons e rest ih =>
      intro acc h
      rw [List.foldl_cons]
      by_cases hc : acc.contains e.type
      · have hstep : (if acc.contains e.type then acc else acc ++ [e.type]) = acc := by
          rw [if_pos hc]
        rw [hstep]
        exact ih acc h
      · have hstep : (if acc.contains e.type then acc else acc ++ [e.type])
            = acc ++ [e.type] := by
          rw [if_neg hc]
        rw [hstep]
        refine ih _ ?_
        have hmem : e.type ∉ acc := by
          simpa using hc
        simp [List.nodup_append, h, hmem]

theorem typesInOrder_nodup (events : List ESpec) : (typesInOrder events).Nodup :=
  typesInOrder_go_nodup events events [] (by simp)

theorem filter_eq_singleton_of_nodup {l : List String} {a : String}
    (hnd : l.Nodup) (ha : a ∈ l) : l.filter (fun x => x = a) = [a] := by
  induction l with
  | nil => cases ha
  | cons b rest ih =>
      rcases List.mem_cons.mp ha with rfl | hmem
      · have hnotin : a ∉ rest := (List.nodup_cons.mp hnd).1
        have : rest.filter (fun x => x = a) = [] :=
          List.filter_eq_nil.mpr (fun x hx => by
            simp only [decide_eq_true_eq]
            rintro rfl
            exact hnotin hx)
        simp [List.filter_cons, this]
      · have hne : b ≠ a := by
          rintro rfl
          exact (List.nodup_cons.mp hnd).1 hmem
        have := ih (List.nodup_cons.mp hnd).2 hmem
        simp [List.filter_cons, hne, this]

theorem filter_eq_nil_of_not_mem {l : List String} {a : String}
    (ha : a ∉ l) : l.filter (fun x => x = a) = [] :=
  List.filter_eq_nil.mpr (fun x hx => by
    simp only [decide_eq_true_eq]
    rintro rfl
    exact ha hx)

theorem buildGroups_map_types (d : Dom) (root : Nat) (events : List ESpec)
    (startId : Nat) :
    ((buildGroups d root events startId).1).map (fun g => g.t) = typesInOrder events := by
  have h := buildGroups_types root events startId (typesInOrder events) [] d
  simpa [buildGroups] using h

theorem buildGroups_groups_spec (d : Dom) (root : Nat) (events : List ESpec)
    (startId : Nat) :
    ∀ g ∈ (buildGroups d root events startId).1,
      g.selMap = selMapOf (ofType events g.t)
      ∧ g.elEvents = elEventsOf (ofType events g.t) := by
  have h := buildGroups_property root events startId (typesInOrder events) [] d
    (by intro g hg; cases hg)
  simpa [buildGroups] using h

theorem map_type_filter (gs : List GroupInfo) (t : String) :
    (gs.filter (fun g => g.t = t)).map (fun g => g.t)
      = (gs.map (fun g => g.t)).filter (fun x => x = t) := by
  induction gs with
  | nil => rfl
  | cons g rest ih =>
      by_cases h : g.t = t <;> simp [List.filter_cons, h, ih]

/-! ## unbindEvents structure lemmas -/

theorem strip_fold_proj (sels : List String) :
    ∀ (st : EngineState),
      ((sels.foldl (fun st sel => { st with dom := stripMarker st.dom st.root sel }) st).native
          = st.native)
      ∧ ((sels.foldl (fun st sel => { st with dom := stripMarker st.dom st.root sel }) st).root
          = st.root)
      ∧ ((sels.foldl (fun st sel => { st with dom := stripMarker st.dom st.root sel }) st).store
          = st.store)
      ∧ ((sels.foldl (fun st sel => { st with dom := stripMarker st.dom st.root sel }) st).hoverActive
          = st.hoverActive)
      ∧ ((sels.foldl (fun st sel => { st with dom := stripMarker st.dom st.root sel }) st).nextId
          = st.nextId) := by
  induction sels with
  | nil => intro st; exact ⟨rfl, rfl, rfl, rfl, rfl⟩
  | cons sel rest ih =>
      intro st
      rw [List.foldl_cons]
      exact ih _

theorem unbindEntry_proj (s : EngineState) (en : StoredEntry) :
    (unbindEntry s en).native
        = s.native.filter (fun ne => !(ne.etype = en.etype && ne.lid = en.lid))
    ∧ (unbindEntry s en).root = s.root
    ∧ (unbindEntry s en).store = s.store
    ∧ (unbindEntry s en).hoverActive = s.hoverActive
    ∧ (unbindEntry s en).nextId = s.nextId := by
  unfold unbindEntry
  cases en.selectors with
  | none => exact ⟨rfl, rfl, rfl, rfl, rfl⟩
  | some sels => exact strip_fold_proj sels _

theorem unbind_fold_native (entries : List StoredEntry) :
    ∀ s : EngineState,
      (entries.foldl unbindEntry s).native
        = s.native.filter (fun ne =>
            !(entries.any (fun en => ne.etype = en.etype && ne.lid = en.lid))) := by
  induction entries with
  | nil => intro s; simp
  | cons en rest ih =>
      intro s
      rw [List.foldl_cons, ih, (unbindEntry_proj s en).1, List.filter_filter]
      refine List.filter_congr fun ne _ => ?_
      cases h1 : (ne.etype = en.etype && ne.lid = en.lid) <;>
        simp [List.any_cons, h1]

theorem unbind_fold_proj (entries : List StoredEntry) :
    ∀ s : EngineState,
      (entries.foldl unbindEntry s).root = s.root
      ∧ (entries.foldl unbindEntry s).store = s.store
      ∧ (entries.foldl unbindEntry s).hoverActive = s.hoverActive
      ∧ (entries.foldl unbindEntry s).nextId = s.nextId := by
  induction entries with
  | nil => intro s; exact ⟨rfl, rfl, rfl, rfl⟩
  | cons en rest ih =>
      intro s
      rw [List.foldl_cons]
      obtain ⟨h1, h2, h3, h4⟩ := ih (unbindEntry s en)
      obtain ⟨_, g1, g2, g3, g4⟩ := unbindEntry_proj s en
      exact ⟨h1.trans g1, h2.trans g2, h3.trans g3, h4.trans g4⟩

theorem unbindEvents_proj (s : EngineState) :
    (unbindEvents s).root = s.root
    ∧ (unbindEvents s).store = s.store
    ∧ (unbindEvents s).hoverActive = s.hoverActive
    ∧ (unbindEvents s).nextId = s.nextId := by
  unfold unbindEvents
  cases hs : s.store with
  | none => exact ⟨rfl, hs, rfl, rfl⟩
  | some entries =>
      obtain ⟨h1, h2, h3, h4⟩ := unbind_fold_proj entries s
      exact ⟨h1, h2.trans hs, h3, h4⟩

theorem unbindEvents_native_nil (s : EngineState) (hcov : storeCoversNative s) :
    (unbindEvents s).native = [] := by
  unfold unbindEvents
  cases hs : s.store with
  | none =>
      rw [List.eq_nil_iff_forall_not_mem]
      intro ne hne
      have := hcov ne hne
      rw [hs] at this
      simp at this
  | some entries =>
      rw [unbind_fold_native]
      refine List.filter_eq_nil.mpr fun ne hne => ?_
      have := hcov ne hne
      rw [hs] at this
      simp only [Option.getD_some] at this
      rcases List.any_eq_true.mp this with ⟨en, hen, hprop⟩
      simp only [Bool.and_eq_true, decide_eq_true_eq] at hprop
      have : entries.any (fun en => ne.etype = en.etype && ne.lid = en.lid) = true :=
        List.any_eq_true.mpr ⟨en, hen, by simp [hprop.1, hprop.2]⟩
      simp [this]

/-! ## deliverEvent structure lemmas -/

theorem runBehavior_proj (s : EngineState) (b : NativeBehavior) (ev : NativeEvent) :
    (runBehavior s b ev).1.native = s.native
    ∧ (runBehavior s b ev).1.store = s.store
    ∧ (runBehavior s b ev).1.root = s.root
    ∧ (runBehavior s b ev).1.nextId = s.nextId := by
  cases b <;> simp [runBehavior]

theorem deliver_fold_proj (ev : NativeEvent) (ns : List NativeEntry) :
    ∀ acc : EngineState × List HandlerCall,
      (ns.foldl (deliverStep ev) acc).1.native = acc.1.native
      ∧ (ns.foldl (deliverStep ev) acc).1.store = acc.1.store
      ∧ (ns.foldl (deliverStep ev) acc).1.root = acc.1.root
      ∧ (ns.foldl (deliverStep ev) acc).1.nextId = acc.1.nextId := by
  induction ns with
  | nil => intro acc; exact ⟨rfl, rfl, rfl, rfl⟩
  | cons ne rest ih =>
      intro acc
      rw [List.foldl_cons]
      obtain ⟨h1, h2, h3, h4⟩ := ih (deliverStep ev acc ne)
      have hstep : (deliverStep ev acc ne).1.native = acc.1.native
          ∧ (deliverStep ev acc ne).1.store = acc.1.store
          ∧ (deliverStep ev acc ne).1.root = acc.1.root
          ∧ (deliverStep ev acc ne).1.nextId = acc.1.nextId := by
        by_cases h : ne.etype = ev.etype <;>
          simp [deliverStep, h, runBehavior_proj acc.1 ne.behavior ev]
      exact ⟨h1.trans hstep.1, h2.trans hstep.2.1, h3.trans hstep.2.2.1,
        h4.trans hstep.2.2.2⟩

theorem deliverEvent_proj (s : EngineState) (ev : NativeEvent) :
    (deliverEvent s ev).1.native = s.native
    ∧ (deliverEvent s ev).1.store = s.store
    ∧ (deliverEvent s ev).1.root = s.root
    ∧ (deliverEvent s ev).1.nextId = s.nextId :=
  deliver_fold_proj ev s.native (s, [])

/-! ## bindEvents structure lemmas -/

theorem bindEventsCore_native (s : EngineState) (E : List ESpec) (vd : List JsVal) :
    (bindEventsCore s E vd).native
      = (unbindEvents s).native
        ++ ((buildGroups (unbindEvents s).dom (unbindEvents s).root E
              (unbindEvents s).nextId).1.map
            (fun g => (⟨g.t, g.lid, .deleg g.selMap g.elEvents vd⟩ : NativeEntry)))
        ++ [⟨"mouseover",
              (unbindEvents s).nextId
                + (buildGroups (unbindEvents s).dom (unbindEvents s).root E
                    (unbindEvents s).nextId).1.length, .hoverOver⟩,
            ⟨"mouseout",
              (unbindEvents s).nextId
                + (buildGroups (unbindEvents s).dom (unbindEvents s).root E
                    (unbindEvents s).nextId).1.length + 1, .hoverOut⟩] := rfl

theorem bindEventsCore_store (s : EngineState) (E : List ESpec) (vd : List JsVal) :
    (bindEventsCore s E vd).store
      = some (((buildGroups (unbindEvents s).dom (unbindEvents s).root E
              (unbindEvents s).nextId).1.map
            (fun g => (⟨g.t, g.lid, some (g.selMap.map (fun p => p.1))⟩ : StoredEntry)))
        ++ [⟨"mouseover",
              (unbindEvents s).nextId
                + (buildGroups (unbindEvents s).dom (unbindEvents s).root E
                    (unbindEvents s).nextId).1.length, none⟩,
            ⟨"mouseout",
              (unbindEvents s).nextId
                + (buildGroups (unbindEvents s).dom (unbindEvents s).root E
                    (unbindEvents s).nextId).1.length + 1, none⟩]) := rfl

theorem bindEventsCore_root (s : EngineState) (E : List ESpec) (vd : List JsVal) :
    (bindEventsCore s E vd).root = s.root := by
  have h : (bindEventsCore s E vd).root = (unbindEvents s).root := rfl
  rw [h, (unbindEvents_proj s).1]

theorem length_filter_deleg (vd : List JsVal) (t : String) :
    ∀ gs : List GroupInfo,
      ((gs.map (fun g => (⟨g.t, g.lid, .deleg g.selMap g.elEvents vd⟩ : NativeEntry))).filter
        (fun ne => ne.etype = t)).length
      = ((gs.map (fun g => g.t)).filter (fun x => x = t)).length := by
  intro gs
  induction gs with
  | nil => rfl
  | cons g rest ih =>
      by_cases h : g.t = t <;> simp [List.filter_cons, h, ih]

theorem bindEventsCore_count (s : EngineState) (E : List ESpec) (vd : List JsVal)
    (t : String) (hcov : storeCoversNative s) :
    countListeners (bindEventsCore s E vd) t = expectedCount E t := by
  unfold countListeners
  rw [bindEventsCore_native, unbindEvents_native_nil s hcov, List.nil_append,
    List.filter_append, List.length_append, length_filter_deleg,
    buildGroups_map_types]
  have hdeleg : (((typesInOrder E).filter (fun x => x = t)).length)
      = if (typesInOrder E).contains t then 1 else 0 := by
    by_cases hmem : t ∈ typesInOrder E
    · rw [filter_eq_singleton_of_nodup (typesInOrder_nodup E) hmem]
      simp [hmem]
    · rw [filter_eq_nil_of_not_mem hmem]
      simp [hmem]
  have hhover :
      (([⟨"mouseover",
            (unbindEvents s).nextId
              + (buildGroups (unbindEvents s).dom (unbindEvents s).root E
                  (unbindEvents s).nextId).1.length, .hoverOver⟩,
          ⟨"mouseout",
            (unbindEvents s).nextId
              + (buildGroups (unbindEvents s).dom (unbindEvents s).root E
                  (unbindEvents s).nextId).1.length + 1, .hoverOut⟩]
          : List NativeEntry).filter (fun ne => ne.etype = t)).length
      = (if t = "mouseover" then 1 else 0) + (if t = "mouseout" then 1 else 0) := by
    by_cases h1 : t = "mouseover" <;> by_cases h2 : t = "mouseout" <;>
      simp_all [List.filter_cons, eq_comm]
  rw [hdeleg, hhover, expectedCount]
  omega

theorem bindEventsCore_cover (s : EngineState) (E : List ESpec) (vd : List JsVal)
    (hcov : storeCoversNative s) : storeCoversNative (bindEventsCore s E vd) := by
  intro ne hne
  rw [bindEventsCore_native, unbindEvents_native_nil s hcov, List.nil_append] at hne
  rw [bindEventsCore_store]
  simp only [Option.getD_some]
  rcases List.mem_append.mp hne with h | h
  · rcases List.mem_map.mp h with ⟨g, hg, rfl⟩
    refine List.any_eq_true.mpr ⟨⟨g.t, g.lid, some (g.selMap.map (fun p => p.1))⟩,
      List.mem_append_left _ (List.mem_map.mpr ⟨g, hg, rfl⟩), by simp⟩
  · simp only [List.mem_cons, List.not_mem_nil, or_false] at h
    rcases h with h | h
    · subst h
      refine List.any_eq_true.mpr
        ⟨⟨"mouseover",
            (unbindEvents s).nextId
              + (buildGroups (unbindEvents s).dom (unbindEvents s).root E
                  (unbindEvents s).nextId).1.length, none⟩,
          List.mem_append_right _ (List.mem_cons_self _ _), by simp⟩
    · subst h
      refine List.any_eq_true.mpr
        ⟨⟨"mouseout",
            (unbindEvents s).nextId
              + (buildGroups (unbindEvents s).dom (unbindEvents s).root E
                  (unbindEvents s).nextId).1.length + 1, none⟩,
          List.mem_append_right _ (List.mem_cons_of_mem _ (List.mem_cons_self _ _)),
          by simp⟩

/-! ## Listener-count invariant over operation sequences (C1) -/

theorem runOps_listener_shape :
    ∀ (ops : List Op) (s : EngineState) (e : Option (List ESpec)),
      storeCoversNative s →
      (match e with
       | none => s.native = []
       | some E => ∀ t, countListeners s t = expectedCount E t) →
      storeCoversNative (runOps s ops)
      ∧ (match lastEff e ops with
         | none => (runOps s ops).native = []
         | some E => ∀ t, countListeners (runOps s ops) t = expectedCount E t) := by
  intro ops
  induction ops with
  | nil => intro s e hcov hsh; exact ⟨hcov, hsh⟩
  | cons op rest ih =>
      intro s e hcov hsh
      have hrun : runOps s (op :: rest) = runOps (applyOp s op) rest :=
        List.foldl_cons _ _
      rw [hrun]
      cases op with
      | bind E vd =>
          by_cases hE : E.isEmpty
          · have happ : applyOp s (.bind E vd) = s := by
              simp [applyOp, bindEvents, hE]
            have hla : lastEff e (Op.bind E vd :: rest) = lastEff e rest := by
              simp [lastEff, hE]
            rw [happ, hla]
            exact ih s e hcov hsh
          · have happ : applyOp s (.bind E vd) = bindEventsCore s E vd := by
              simp [applyOp, bindEvents, hE]
            have hla : lastEff e (Op.bind E vd :: rest) = lastEff (some E) rest := by
              simp [lastEff, hE]
            rw [happ, hla]
            exact ih (bindEventsCore s E vd) (some E)
              (bindEventsCore_cover s E vd hcov)
              (fun t => bindEventsCore_count s E vd t hcov)
      | unbind =>
          have hla : lastEff e (Op.unbind :: rest) = lastEff none rest := rfl
          rw [hla]
          refine ih (unbindEvents s) none ?_ ?_
          · intro ne hne
            rw [unbindEvents_native_nil s hcov] at hne
            cases hne
          · exact unbindEvents_native_nil s hcov
      | deliver ev =>
          have hla : lastEff e (Op.deliver ev :: rest) = lastEff e rest := rfl
          rw [hla]
          refine ih ((deliverEvent s ev).1) e ?_ ?_
          · intro ne hne
            rw [(deliverEvent_proj s ev).1] at hne
            rw [(deliverEvent_proj s ev).2.1]
            exact hcov ne hne
          · cases e with
            | none => rw [(deliverEvent_proj s ev).1]; exact hsh
            | some E =>
                intro t
                unfold countListeners
                rw [(deliverEvent_proj s ev).1]
                exact hsh t

/-- Counterexample to claim C1 as stated: binding a single `mouseover`
EventSpec leaves *two* native `mouseover` listeners on the root — the
delegation listener for the bound type plus the hover sub-engine's own
`mouseover` listener — not exactly one. -/
theorem single_listener_per_type_counterexample :
    countListeners
      (runOps (initState ⟨[⟨0, none, [], none, none⟩]⟩ 0)
        [.bind [⟨"mouseover", some ".itm", 0⟩] []])
      "mouseover" = 2
    ∧ (2 : Nat) ≠ 1 :=
  ⟨by decide, by decide⟩

/-- Claim C1, amended: after any sequence of `bind`/`unbind`/event
deliveries, the number of native listeners on the root of each type `t`
is exactly one per distinct type of the most recent effective bind,
*plus* one extra `mouseover` and one extra `mouseout` listener that the
hover sub-engine always registers; for every type other than those two
the original claim's count of exactly one holds, because every bind first
fully unbinds the existing record. -/
theorem bind_listener_count_with_hover (d0 : Dom) (root : Nat) (ops : List Op)
    (E : List ESpec) (t : String) (h : lastEff none ops = some E) :
    countListeners (runOps (initState d0 root) ops) t = expectedCount E t := by
  have hrun := runOps_listener_shape ops (initState d0 root) none
    (by intro ne hne; cases hne) (by rfl)
  rw [h] at hrun
  exact hrun.2 t

/-- Witness for C1 (amended): one effective `click` bind yields exactly
one native `click` listener. -/
theorem bind_listener_count_with_hover_witness :
    lastEff none [Op.bind [⟨"click", some ".itm", 0⟩] []]
        = some [⟨"click", some ".itm", 0⟩]
    ∧ countListeners
        (runOps (initState ⟨[⟨0, none, [], none, none⟩]⟩ 0)
          [.bind [⟨"click", some ".itm", 0⟩] []])
        "click" = 1 := by
  refine ⟨by decide, ?_⟩
  have h := bind_listener_count_with_hover ⟨[⟨0, none, [], none, none⟩]⟩ 0
    [.bind [⟨"click", some ".itm", 0⟩] []] [⟨"click", some ".itm", 0⟩] "click"
    (by decide)
  exact h.trans (by decide)

/-! ## Event dispatch (C2) -/

theorem dispatchLoop_eq_firstHit (d : Dom) (el : Nat)
    (selMap : List (String × List ESpec)) :
    ∀ fuel o, dispatchLoop d el selMap fuel o
      = firstHit d selMap (ancestorsBelow d el fuel o) := by
  intro fuel
  induction fuel with
  | zero => intro o; rfl
  | succ f ih =>
      intro o
      cases o with
      | none => rfl
      | some n =>
          by_cases h : n = el
          · simp [dispatchLoop, ancestorsBelow, h, firstHit]
          · simp only [dispatchLoop, ancestorsBelow, if_neg h, firstHit]
            cases hf : selMap.find? (fun p => matchesNode d p.1 n) with
            | some hit => simp [hf]
            | none => simp [hf, ih]

theorem dispatchDelegation_eq_claim (d : Dom) (el : Nat)
    (selMap : List (String × List ESpec)) (elEvents : List ESpec)
    (vd : List JsVal) (target : Nat) :
    dispatchDelegation d el selMap elEvents vd target
      = dispatchClaim d el selMap elEvents vd target := by
  unfold dispatchDelegation dispatchClaim
  rw [dispatchLoop_eq_firstHit]

theorem deliver_fold_delegs (ev : NativeEvent) (vd : List JsVal) :
    ∀ (gs : List GroupInfo) (st : EngineState) (cs : List HandlerCall),
      ((gs.map (fun g => (⟨g.t, g.lid, .deleg g.selMap g.elEvents vd⟩ : NativeEntry))).foldl
        (deliverStep ev) (st, cs))
      = (st, cs ++ (gs.filter (fun g => g.t = ev.etype)).flatMap
          (fun g => dispatchDelegation st.dom st.root g.selMap g.elEvents vd ev.target)) := by
  intro gs
  induction gs with
  | nil => intro st cs; simp
  | cons g rest ih =>
      intro st cs
      rw [List.map_cons, List.foldl_cons]
      by_cases h : g.t = ev.etype
      · have hstep :
            deliverStep ev (st, cs)
              ⟨g.t, g.lid, .deleg g.selMap g.elEvents vd⟩
            = (st, cs ++ dispatchDelegation st.dom st.root g.selMap g.elEvents vd ev.target) := by
          simp [deliverStep, h, runBehavior]
        rw [hstep, ih]
        simp [List.filter_cons, h, List.append_assoc]
      · have hstep :
            deliverStep ev (st, cs)
              ⟨g.t, g.lid, .deleg g.selMap g.elEvents vd⟩ = (st, cs) := by
          simp [deliverStep, h]
        rw [hstep, ih]
        simp [List.filter_cons, h]

theorem deliver_hover_calls (ev : NativeEvent) (i j : Nat)
    (st : EngineState) (cs : List HandlerCall) :
    ((([⟨"mouseover", i, .hoverOver⟩,
        ⟨"mouseout", j, .hoverOut⟩]) : List NativeEntry).foldl
      (deliverStep ev) (st, cs)).2 = cs := by
  by_cases h1 : ("mouseover" : String) = ev.etype <;>
    by_cases h2 : ("mouseout" : String) = ev.etype <;>
      simp [deliverStep, h1, h2, runBehavior]

/-- Claim C2: for every native event delivered to a root freshly bound
with a nonempty spec list, the handler invocations are exactly those the
claim describes: the innermost node of the ancestor path (target
inclusive, root exclusive) matching any selector registered for the
event's type receives every handler of the matched selector+type pair in
registration order, with the resolved item data and the root; when no
node on the path matches, exactly the selector-less specs of that type
run with `(event, root, null, NaN, root)`; types with no registered
listener produce no calls.  The hover listeners contribute no handler
invocations. -/
theorem nearest_match_dispatch (s : EngineState) (E : List ESpec)
    (vd : List JsVal) (ev : NativeEvent)
    (hcov : storeCoversNative s) (hE : E ≠ []) :
    (deliverEvent (bindEvents s (some s.root) E vd) ev).2
      = if ev.etype ∈ typesInOrder E then
          dispatchClaim (bindEvents s (some s.root) E vd).dom s.root
            (selMapOf (ofType E ev.etype)) (elEventsOf (ofType E ev.etype))
            vd ev.target
        else [] := by
  have hEne : ¬ E.isEmpty := by simpa [List.isEmpty_iff] using hE
  have hbind : bindEvents s (some s.root) E vd = bindEventsCore s E vd := by
    simp [bindEvents, hEne]
  rw [hbind]
  unfold deliverEvent
  rw [bindEventsCore_native, unbindEvents_native_nil s hcov, List.nil_append,
    List.foldl_append, deliver_fold_delegs, deliver_hover_calls, List.nil_append]
  set gs := (buildGroups (unbindEvents s).dom (unbindEvents s).root E
    (unbindEvents s).nextId).1 with hgs
  have hroot : (bindEventsCore s E vd).root = s.root := bindEventsCore_root s E vd
  by_cases hmem : ev.etype ∈ typesInOrder E
  · have hmap : (gs.filter (fun g => g.t = ev.etype)).map (fun g => g.t)
        = [ev.etype] := by
      rw [map_type_filter, hgs, buildGroups_map_types,
        filter_eq_singleton_of_nodup (typesInOrder_nodup E) hmem]
    cases hflt : gs.filter (fun g => g.t = ev.etype) with
    | nil => rw [hflt] at hmap; cases hmap
    | cons g rest =>
        rw [hflt, List.map_cons] at hmap
        have hgt : g.t = ev.etype := (List.cons_eq_cons.mp hmap).1
        have hrest : rest = [] := by
          have := (List.cons_eq_cons.mp hmap).2
          exact List.map_eq_nil.mp this
        subst hrest
        have hgmem : g ∈ gs := List.mem_of_mem_filter (hflt ▸ List.mem_cons_self g [])
        obtain ⟨hsm, hel⟩ := buildGroups_groups_spec (unbindEvents s).dom
          (unbindEvents s).root E (unbindEvents s).nextId g (hgs ▸ hgmem)
        simp only [List.flatMap_cons, List.flatMap_nil, List.append_nil]
        rw [if_pos hmem, dispatchDelegation_eq_claim, hsm, hel, hgt, hroot]
  · have hflt : gs.filter (fun g => g.t = ev.etype) = [] := by
      have hmap : (gs.filter (fun g => g.t = ev.etype)).map (fun g => g.t) = [] := by
        rw [map_type_filter, hgs, buildGroups_map_types,
          filter_eq_nil_of_not_mem hmem]
      exact List.map_eq_nil.mp hmap
    rw [hflt, if_neg hmem]
    rfl

/-- Witness for C2: in the example document, with both the outer item
(identity 1) and the inner item (identity 2) matching the bound selector,
a click delivered on the deeply nested child (identity 3) fires only the
inner item's handler, with index 1, its view-data record and the root. -/
theorem nearest_match_dispatch_witness :
    storeCoversNative (initState exListDom 0)
    ∧ (deliverEvent
        (bindEvents (initState exListDom 0) (some 0)
          [⟨"click", some ".a", 7⟩] [.vnum 10, .vnum 20])
        ⟨"click", 3, none⟩).2
      = [⟨7, 2, .vnum 20, some 1, 0⟩] := by
  constructor
  · intro ne hne
    cases hne
  · have h := nearest_match_dispatch (initState exListDom 0)
      [⟨"click", some ".a", 7⟩] [.vnum 10, .vnum 20] ⟨"click", 3, none⟩
      (by intro ne hne; cases hne) (by decide)
    exact h.trans rfl

/-! ## Stability of tree walks under class mutation -/

theorem getNode_updateNode (d : Dom) (i : Nat) (f : DomNode → DomNode)
    (hf : ∀ n, (f n).nid = n.nid) (j : Nat) :
    getNode (updateNode d i f) j
      = (getNode d j).map (fun n => if n.nid = i then f n else n) := by
  unfold getNode updateNode
  rw [List.find?_map]
  have hpred : ((fun n => decide (n.nid = j)) ∘ fun n => if n.nid = i then f n else n)
      = (fun n : DomNode => decide (n.nid = j)) := by
    funext n
    by_cases h : n.nid = i <;> simp [Function.comp, h, hf]
  rw [hpred]

theorem parentOf_updateNode (d : Dom) (i : Nat) (f : DomNode → DomNode)
    (hf : ∀ n, (f n).nid = n.nid ∧ (f n).parent = n.parent) (j : Nat) :
    parentOf (updateNode d i f) j = parentOf d j := by
  unfold parentOf
  rw [getNode_updateNode d i f (fun n => (hf n).1) j]
  cases getNode d j with
  | none => rfl
  | some n =>
      by_cases h : n.nid = i <;> simp [h, (hf n).2]

theorem walkFuel_updateNode (d : Dom) (i : Nat) (f : DomNode → DomNode) :
    walkFuel (updateNode d i f) = walkFuel d := by
  simp [walkFuel, updateNode]

theorem containsFrom_updateNode (d : Dom) (i : Nat) (f : DomNode → DomNode)
    (hf : ∀ n, (f n).nid = n.nid ∧ (f n).parent = n.parent) (a : Nat) :
    ∀ fuel o, containsFrom (updateNode d i f) a fuel o = containsFrom d a fuel o := by
  intro fuel
  induction fuel with
  | zero => intro o; rfl
  | succ ff ih =>
      intro o
      cases o with
      | none => rfl
      | some j =>
          by_cases h : j = a
          · simp [containsFrom, h]
          · simp [containsFrom, h, parentOf_updateNode d i f hf, ih]

theorem containsNode_updateNode (d : Dom) (i : Nat) (f : DomNode → DomNode)
    (hf : ∀ n, (f n).nid = n.nid ∧ (f n).parent = n.parent) (a b : Nat) :
    containsNode (updateNode d i f) a b = containsNode d a b := by
  unfold containsNode
  rw [walkFuel_updateNode, containsFrom_updateNode d i f hf]

theorem addClassFn_preserves (c : String) (n : DomNode) :
    (addClassFn c n).nid = n.nid ∧ (addClassFn c n).parent = n.parent :=
  ⟨rfl, rfl⟩

theorem removeClassFn_preserves (c : String) (n : DomNode) :
    (removeClassFn c n).nid = n.nid ∧ (removeClassFn c n).parent = n.parent :=
  ⟨rfl, rfl⟩

theorem containsNode_addClassAt (d : Dom) (i : Nat) (c : String) (a b : Nat) :
    containsNode (addClassAt d i c) a b = containsNode d a b :=
  containsNode_updateNode d i (addClassFn c) (addClassFn_preserves c) a b

theorem containsNode_removeClassAt (d : Dom) (i : Nat) (c : String) (a b : Nat) :
    containsNode (removeClassAt d i c) a b = containsNode d a b :=
  containsNode_updateNode d i (removeClassFn c) (removeClassFn_preserves c) a b

theorem containsNode_addClass_fold (c : String) (a b : Nat) :
    ∀ (ids : List Nat) (d : Dom),
      containsNode (ids.foldl (fun dd i => addClassAt dd i c) d) a b
        = containsNode d a b := by
  intro ids
  induction ids with
  | nil => intro d; rfl
  | cons i rest ih =>
      intro d
      rw [List.foldl_cons, ih, containsNode_addClassAt]

theorem containsNode_stripMarker (d : Dom) (root : Nat) (sel : String) (a b : Nat) :
    containsNode (stripMarker d root sel) a b = containsNode d a b := by
  unfold stripMarker
  generalize querySelectorAll d root sel = ids
  induction ids generalizing d with
  | nil => rfl
  | cons i rest ih =>
      rw [List.foldl_cons, ih, containsNode_removeClassAt]

theorem addClassFn_idem (c : String) (n : DomNode) :
    addClassFn c (addClassFn c n) = addClassFn c n := by
  unfold addClassFn
  by_cases h : c ∈ n.classes <;> simp [h]

theorem removeClassFn_idem (c : String) (n : DomNode) :
    removeClassFn c (removeClassFn c n) = removeClassFn c n := by
  unfold removeClassFn
  simp [List.filter_filter]

theorem addClass_fold_nodes (c : String) :
    ∀ (ids : List Nat) (d : Dom),
      (ids.foldl (fun dd i => addClassAt dd i c) d).nodes
        = d.nodes.map (fun n => if ids.contains n.nid then addClassFn c n else n) := by
  intro ids
  induction ids with
  | nil => intro d; simp
  | cons i rest ih =>
      intro d
      rw [List.foldl_cons, ih]
      show _ = d.nodes.map _
      unfold addClassAt updateNode
      rw [List.map_map]
      refine List.map_congr_left fun n _ => ?_
      by_cases h1 : n.nid = i
      · by_cases h2 : rest.contains n.nid <;>
          simp [Function.comp, h1, h2, List.contains_cons, addClassFn_idem]
      · by_cases h2 : rest.contains n.nid <;>
          simp [Function.comp, h1, h2, List.contains_cons]

theorem strip_fold_nodes (c : String) :
    ∀ (ids : List Nat) (d : Dom),
      (ids.foldl (fun dd i => removeClassAt dd i c) d).nodes
        = d.nodes.map (fun n => if ids.contains n.nid then removeClassFn c n else n) := by
  intro ids
  induction ids with
  | nil => intro d; simp
  | cons i rest ih =>
      intro d
      rw [List.foldl_cons, ih]
      show _ = d.nodes.map _
      unfold removeClassAt updateNode
      rw [List.map_map]
      refine List.map_congr_left fun n _ => ?_
      by_cases h1 : n.nid = i
      · by_cases h2 : rest.contains n.nid <;>
          simp [Function.comp, h1, h2, List.contains_cons, removeClassFn_idem]
      · by_cases h2 : rest.contains n.nid <;>
          simp [Function.comp, h1, h2, List.contains_cons]

/-! ## Marker-class bookkeeping (C7) -/

theorem contains_addClassFn_other (c x : String) (n : DomNode)
    (h : n.classes.contains x = true) :
    (addClassFn c n).classes.contains x = true := by
  unfold addClassFn
  by_cases hc : n.classes.contains c <;> simp_all

theorem contains_removeClassFn (c x : String) (n : DomNode) :
    (removeClassFn c n).classes.contains x = true
      ↔ (x ≠ c ∧ n.classes.contains x = true) := by
  unfold removeClassFn
  simp [List.mem_filter, and_comm]

theorem nids_updateNode (d : Dom) (i : Nat) (f : DomNode → DomNode)
    (hf : ∀ n, (f n).nid = n.nid) :
    (updateNode d i f).nodes.map (fun n => n.nid) = d.nodes.map (fun n => n.nid) := by
  unfold updateNode
  rw [List.map_map]
  refine List.map_congr_left fun n _ => ?_
  by_cases h : n.nid = i <;> simp [Function.comp, h, hf]

theorem nids_addClass_fold (c : String) :
    ∀ (ids : List Nat) (d : Dom),
      (ids.foldl (fun dd i => addClassAt dd i c) d).nodes.map (fun n => n.nid)
        = d.nodes.map (fun n => n.nid) := by
  intro ids
  induction ids with
  | nil => intro d; rfl
  | cons i rest ih =>
      intro d
      rw [List.foldl_cons, ih]
      exact nids_updateNode d i (addClassFn c) (fun n => rfl)

theorem node_eq_of_nid_eq {d : Dom}
    (hids : (d.nodes.map (fun n => n.nid)).Nodup) :
    ∀ {n m : DomNode}, n ∈ d.nodes → m ∈ d.nodes → n.nid = m.nid → n = m := by
  intro n m hn hm heq
  have : ∀ (l : List DomNode), (l.map (fun n => n.nid)).Nodup →
      ∀ {a b : DomNode}, a ∈ l → b ∈ l → a.nid = b.nid → a = b := by
    intro l
    induction l with
    | nil => intro _ a b ha; cases ha
    | cons x rest ih =>
        intro hl a b ha hb hab
        rw [List.map_cons, List.nodup_cons] at hl
        rcases List.mem_cons.mp ha with rfl | ha' <;>
          rcases List.mem_cons.mp hb with rfl | hb'
        · rfl
        · exact absurd (hab ▸ List.mem_map_of_mem (fun n => n.nid) hb') hl.1
        · exact absurd (hab ▸ List.mem_map_of_mem (fun n => n.nid) ha') hl.1
        · exact ih hl.2 ha' hb' hab
  exact this d.nodes hids hn hm heq

theorem mem_querySelectorAll {d : Dom} {root : Nat} {sel : String} {i : Nat} :
    i ∈ querySelectorAll d root sel
      ↔ ∃ n ∈ d.nodes, n.nid = i ∧ i ≠ root ∧ containsNode d root i = true
          ∧ matchesSel sel n.classes = true := by
  unfold querySelectorAll
  constructor
  · intro h
    rcases List.mem_map.mp h with ⟨n, hn, rfl⟩
    rw [List.mem_filter] at hn
    have hc := hn.2
    simp only [Bool.and_eq_true, decide_eq_true_eq, ne_eq, bne_iff_ne] at hc
    exact ⟨n, hn.1, rfl, hc.1.1, hc.1.2, hc.2⟩
  · rintro ⟨n, hn, rfl, hroot, hcont, hmatch⟩
    refine List.mem_map.mpr ⟨n, List.mem_filter.mpr ⟨hn, ?_⟩, rfl⟩
    simp [hroot, hcont, hmatch]

theorem markedOK_mono {d : Dom} {root : Nat} {S S' : List String}
    (hsub : ∀ x ∈ S, x ∈ S') (h : markedOK d root S) : markedOK d root S' := by
  intro n hn hmark
  obtain ⟨h1, h2, sel, hsel, c, hc, hcne, hcc⟩ := h n hn hmark
  exact ⟨h1, h2, sel, hsub sel hsel, c, hc, hcne, hcc⟩

theorem markedOK_of_noEventClass {d : Dom} {root : Nat} (h : noEventClass d)
    (S : List String) : markedOK d root S := by
  intro n hn hmark
  rw [h n hn] at hmark
  cases hmark

theorem markedOK_mark (d : Dom) (root : Nat) (S : List String) (sel : String)
    (hids : (d.nodes.map (fun n => n.nid)).Nodup)
    (h : markedOK d root S) :
    markedOK ((querySelectorAll d root sel).foldl
        (fun dd i => addClassAt dd i RULES.eventClass) d) root (sel :: S) := by
  intro n' hn' hmark
  have hcinv : ∀ a b,
      containsNode ((querySelectorAll d root sel).foldl
        (fun dd i => addClassAt dd i RULES.eventClass) d) a b
      = containsNode d a b :=
    fun a b => containsNode_addClass_fold RULES.eventClass a b _ d
  rw [addClass_fold_nodes] at hn'
  rcases List.mem_map.mp hn' with ⟨n, hn, hEq⟩
  by_cases hq : (querySelectorAll d root sel).contains n.nid
  · have hn'eq : n' = addClassFn RULES.eventClass n := by rw [← hEq, if_pos hq]
    have hqmem : n.nid ∈ querySelectorAll d root sel := by simpa using hq
    rcases mem_querySelectorAll.mp hqmem with ⟨n0, hn0, hn0id, hroot, hcont, hmatch⟩
    have hn0n : n0 = n := node_eq_of_nid_eq hids hn0 hn hn0id
    rw [hn0n] at hmatch
    rcases List.any_eq_true.mp hmatch with ⟨c, hcmem, hcc⟩
    have hnid : n'.nid = n.nid := by rw [hn'eq]; rfl
    refine ⟨by rw [hcinv, hnid]; exact hcont, by rw [hnid]; exact hroot, ?_⟩
    by_cases hce : c = RULES.eventClass
    · subst hce
      obtain ⟨_, _, sel', hsel', c', hc', hcne', hcc'⟩ := h n hn hcc
      exact ⟨sel', List.mem_cons_of_mem _ hsel', c', hc', hcne', by
        rw [hn'eq]; exact contains_addClassFn_other _ _ _ hcc'⟩
    · exact ⟨sel, List.mem_cons_self _ _, c, hcmem, hce, by
        rw [hn'eq]; exact contains_addClassFn_other _ _ _ hcc⟩
  · have hn'eq : n' = n := by rw [← hEq, if_neg hq]
    subst hn'eq
    obtain ⟨h1, h2, sel', hsel', c', hc', hcne', hcc'⟩ := h n' hn hmark
    exact ⟨by rw [hcinv]; exact h1, h2, sel', List.mem_cons_of_mem _ hsel',
      c', hc', hcne', hcc'⟩

theorem buildGroup_fold_marked (root : Nat) :
    ∀ (evl : List ESpec) (m : List (String × List ESpec)) (els : List ESpec)
      (d : Dom) (S : List String),
      (d.nodes.map (fun n => n.nid)).Nodup →
      markedOK d root S →
      (∀ ev ∈ evl, ∀ sel, ev.selector = some sel → sel = "" ∨ sel ∈ S) →
      ((evl.foldl (buildGroupStep root) (m, els, d)).2.2.nodes.map (fun n => n.nid)).Nodup
      ∧ markedOK (evl.foldl (buildGroupStep root) (m, els, d)).2.2 root S := by
  intro evl
  induction evl with
  | nil => intro m els d S hids h _; exact ⟨hids, h⟩
  | cons ev rest ih =>
      intro m els d S hids h hsels
      rw [List.foldl_cons]
      cases hsel : ev.selector with
      | none =>
          have hstep : buildGroupStep root (m, els, d) ev = (m, els ++ [ev], d) := by
            simp [buildGroupStep, hsel]
          rw [hstep]
          exact ih _ _ d S hids h (fun e he => hsels e (List.mem_cons_of_mem _ he))
      | some sel =>
          by_cases hz : sel = ""
          · have hstep : buildGroupStep root (m, els, d) ev = (m, els ++ [ev], d) := by
              simp [buildGroupStep, hsel, hz]
            rw [hstep]
            exact ih _ _ d S hids h (fun e he => hsels e (List.mem_cons_of_mem _ he))
          · have hstep : buildGroupStep root (m, els, d) ev
                = (pushSel m sel ev, els,
                    (querySelectorAll d root sel).foldl
                      (fun dd i => addClassAt dd i RULES.eventClass) d) := by
              simp [buildGroupStep, hsel, hz]
            rw [hstep]
            have hmem : sel ∈ S := by
              rcases hsels ev (List.mem_cons_self _ _) sel hsel with hc | hc
              · exact absurd hc hz
              · exact hc
            refine ih _ _ _ S ?_ ?_ (fun e he => hsels e (List.mem_cons_of_mem _ he))
            · rw [nids_addClass_fold]
              exact hids
            · exact markedOK_mono (fun x hx => by
                  rcases List.mem_cons.mp hx with rfl | hx
                  · exact hmem
                  · exact hx)
                (markedOK_mark d root S sel hids h)

theorem selectorsOf_mem (events : List ESpec) (ev : ESpec) (sel : String)
    (hev : ev ∈ events) (hsel : ev.selector = some sel) (hz : sel ≠ "") :
    sel ∈ selectorsOf events := by
  unfold selectorsOf
  refine List.mem_filterMap.mpr ⟨ev, hev, ?_⟩
  rw [hsel]
  simp [hz]

theorem buildGroups_fold_marked (d : Dom) (root : Nat) (events : List ESpec)
    (startId : Nat)
    (hids : (d.nodes.map (fun n => n.nid)).Nodup)
    (h : markedOK d root (selectorsOf events)) :
    markedOK (buildGroups d root events startId).2 root (selectorsOf events) := by
  unfold buildGroups
  have hgen : ∀ (ts : List String) (gs : List GroupInfo) (d0 : Dom),
      (d0.nodes.map (fun n => n.nid)).Nodup →
      markedOK d0 root (selectorsOf events) →
      markedOK (ts.foldl (fun acc t =>
          let b := buildGroup acc.2 root (ofType events t)
          (acc.1 ++ [⟨t, startId + acc.1.length, b.1, b.2.1⟩], b.2.2))
        (gs, d0)).2 root (selectorsOf events) := by
    intro ts
    induction ts with
    | nil => intro gs d0 _ h0; exact h0
    | cons t rest ih =>
        intro gs d0 hids0 h0
        rw [List.foldl_cons]
        have hb := buildGroup_fold_marked root (ofType events t) [] [] d0
          (selectorsOf events) hids0 h0
          (fun e he sel hsel => by
            by_cases hz : sel = ""
            · exact Or.inl hz
            · exact Or.inr (selectorsOf_mem events e sel
                (List.mem_of_mem_filter he) hsel hz))
        exact ih _ _ hb.1 hb.2
  exact hgen (typesInOrder events) [] d hids h

theorem nids_strip_fold (c : String) :
    ∀ (ids : List Nat) (d : Dom),
      ((ids.foldl (fun dd i => removeClassAt dd i c) d).nodes.map (fun n => n.nid))
        = d.nodes.map (fun n => n.nid) := by
  intro ids
  induction ids with
  | nil => intro d; rfl
  | cons i rest ih =>
      intro d
      rw [List.foldl_cons, ih]
      exact nids_updateNode d i (removeClassFn c) (fun n => rfl)

theorem nids_stripMarker (d : Dom) (root : Nat) (sel : String) :
    (stripMarker d root sel).nodes.map (fun n => n.nid)
      = d.nodes.map (fun n => n.nid) := by
  unfold stripMarker
  generalize querySelectorAll d root sel = ids
  exact nids_strip_fold RULES.eventClass ids d

theorem noEventClass_stripMarker (d : Dom) (root : Nat) (sel : String)
    (h : noEventClass d) : noEventClass (stripMarker d root sel) := by
  intro n' hn'
  unfold stripMarker at hn'
  rw [strip_fold_nodes] at hn'
  rcases List.mem_map.mp hn' with ⟨n, hn, hEq⟩
  by_cases hq : (querySelectorAll d root sel).contains n.nid
  · rw [← hEq, if_pos hq]
    cases hc : (removeClassFn RULES.eventClass n).classes.contains RULES.eventClass
    · rfl
    · exact absurd ((contains_removeClassFn _ _ _).mp hc).1 (by simp)
  · rw [← hEq, if_neg hq]
    exact h n hn

theorem strip_list_noEventClass (root : Nat) :
    ∀ (sels : List String) (d : Dom), noEventClass d →
      noEventClass (sels.foldl (fun dd sel => stripMarker dd root sel) d) := by
  intro sels
  induction sels with
  | nil => intro d h; exact h
  | cons sel rest ih =>
      intro d h
      rw [List.foldl_cons]
      exact ih _ (noEventClass_stripMarker d root sel h)

theorem nids_strip_list (root : Nat) :
    ∀ (sels : List String) (d : Dom),
      ((sels.foldl (fun dd sel => stripMarker dd root sel) d).nodes.map (fun n => n.nid))
        = d.nodes.map (fun n => n.nid) := by
  intro sels
  induction sels with
  | nil => intro d; rfl
  | cons sel rest ih =>
      intro d
      rw [List.foldl_cons, ih, nids_stripMarker]

theorem strip_fold_dom (sels : List String) :
    ∀ (st : EngineState),
      (sels.foldl (fun st sel => { st with dom := stripMarker st.dom st.root sel }) st).dom
        = sels.foldl (fun dd sel => stripMarker dd st.root sel) st.dom := by
  induction sels with
  | nil => intro st; rfl
  | cons sel rest ih =>
      intro st
      rw [List.foldl_cons, List.foldl_cons, ih]

theorem unbind_fold_dom (entries : List StoredEntry) :
    ∀ s : EngineState,
      (entries.foldl unbindEntry s).dom
        = (allSelectors entries).foldl (fun dd sel => stripMarker dd s.root sel) s.dom := by
  induction entries with
  | nil => intro s; rfl
  | cons en rest ih =>
      intro s
      rw [List.foldl_cons, ih (unbindEntry s en)]
      have hroot : (unbindEntry s en).root = s.root := (unbindEntry_proj s en).2.1
      have hdom : (unbindEntry s en).dom
          = (en.selectors.getD []).foldl (fun dd sel => stripMarker dd s.root sel) s.dom := by
        unfold unbindEntry
        cases en.selectors with
        | none => rfl
        | some sels =>
            simp only [Option.getD_some]
            exact strip_fold_dom sels _
      rw [hroot, hdom]
      show _ = (allSelectors (en :: rest)).foldl _ s.dom
      unfold allSelectors
      rw [List.flatMap_cons, List.foldl_append]

theorem strip_sequence_clears (root : Nat) :
    ∀ (sels : List String) (d : Dom),
      markedOK d root sels →
      noEventClass (sels.foldl (fun dd sel => stripMarker dd root sel) d) := by
  intro sels
  induction sels with
  | nil =>
      intro d h n hn
      cases hc : n.classes.contains RULES.eventClass
      · rfl
      · obtain ⟨_, _, sel, hsel, _⟩ := h n hn hc
        cases hsel
  | cons sel rest ih =>
      intro d h
      rw [List.foldl_cons]
      refine ih (stripMarker d root sel) ?_
      intro n' hn' hmark
      unfold stripMarker at hn'
      rw [strip_fold_nodes] at hn'
      rcases List.mem_map.mp hn' with ⟨n, hn, hEq⟩
      by_cases hq : (querySelectorAll d root sel).contains n.nid
      · exfalso
        rw [← hEq, if_pos hq] at hmark
        exact absurd ((contains_removeClassFn _ _ _).mp hmark).1 (by simp)
      · rw [← hEq, if_neg hq] at hmark ⊢
        obtain ⟨h1, h2, sel', hsel', c', hc', hcne', hcc'⟩ := h n hn hmark
        have hcinv : ∀ a b, containsNode (stripMarker d root sel) a b = containsNode d a b :=
          fun a b => containsNode_stripMarker d root sel a b
        rcases List.mem_cons.mp hsel' with rfl | hsel'
        · exfalso
          have hmatch : matchesSel sel' n.classes = true :=
            List.any_eq_true.mpr ⟨c', hc', hcc'⟩
          have : n.nid ∈ querySelectorAll d root sel' :=
            mem_querySelectorAll.mpr ⟨n, hn, rfl, h2, h1, hmatch⟩
          exact absurd this (by simpa using hq)
        · exact ⟨by rw [hcinv]; exact h1, h2, sel', hsel', c', hc', hcne', hcc'⟩

theorem keys_pushSel_cases (m : List (String × List ESpec)) (sel : String) (ev : ESpec) :
    ((pushSel m sel ev).map (fun p => p.1)) = m.map (fun p => p.1)
    ∨ ((pushSel m sel ev).map (fun p => p.1)) = m.map (fun p => p.1) ++ [sel] := by
  unfold pushSel
  by_cases h : m.any (fun p => p.1 = sel)
  · left
    rw [if_pos h, List.map_map]
    refine List.map_congr_left fun p _ => ?_
    by_cases hp : p.1 = sel <;> simp [Function.comp, hp]
  · right
    rw [if_neg h]
    simp

theorem keys_pushSel_mono (m : List (String × List ESpec)) (sel : String) (ev : ESpec)
    (x : String) (hx : x ∈ m.map (fun p => p.1)) :
    x ∈ (pushSel m sel ev).map (fun p => p.1) := by
  rcases keys_pushSel_cases m sel ev with h | h
  · rw [h]; exact hx
  · rw [h]; exact List.mem_append_left _ hx

theorem sel_mem_pushSel (m : List (String × List ESpec)) (sel : String) (ev : ESpec) :
    sel ∈ (pushSel m sel ev).map (fun p => p.1) := by
  by_cases h : m.any (fun p => p.1 = sel)
  · rcases List.any_eq_true.mp h with ⟨p, hp, hps⟩
    simp only [decide_eq_true_eq] at hps
    exact keys_pushSel_mono m sel ev sel (hps ▸ List.mem_map_of_mem _ hp)
  · unfold pushSel
    rw [if_neg h]
    simp

theorem selStep_none (m : List (String × List ESpec)) (ev : ESpec)
    (h : ev.selector = none) : selStep m ev = m := by
  unfold selStep; rw [h]

theorem selStep_empty (m : List (String × List ESpec)) (ev : ESpec) (sel : String)
    (h : ev.selector = some sel) (hz : sel = "") : selStep m ev = m := by
  unfold selStep; rw [h]; simp [hz]

theorem selStep_push (m : List (String × List ESpec)) (ev : ESpec) (sel : String)
    (h : ev.selector = some sel) (hz : sel ≠ "") : selStep m ev = pushSel m sel ev := by
  unfold selStep; rw [h]; simp [hz]

theorem selStep_keys_mono (m : List (String × List ESpec)) (ev : ESpec) (x : String)
    (hx : x ∈ m.map (fun p => p.1)) : x ∈ (selStep m ev).map (fun p => p.1) := by
  cases hsel : ev.selector with
  | none => rw [selStep_none m ev hsel]; exact hx
  | some sel =>
      by_cases hz : sel = ""
      · rw [selStep_empty m ev sel hsel hz]; exact hx
      · rw [selStep_push m ev sel hsel hz]; exact keys_pushSel_mono m sel ev x hx

theorem selMap_fold_keys_mono :
    ∀ (evl : List ESpec) (m : List (String × List ESpec)) (x : String),
      x ∈ m.map (fun p => p.1) → x ∈ (evl.foldl selStep m).map (fun p => p.1) := by
  intro evl
  induction evl with
  | nil => intro m x hx; exact hx
  | cons ev rest ih =>
      intro m x hx
      rw [List.foldl_cons]
      exact ih _ x (selStep_keys_mono m ev x hx)

theorem selectorsOf_sub_keys :
    ∀ (evl : List ESpec) (m : List (String × List ESpec)) (sel : String),
      sel ∈ selectorsOf evl → sel ∈ ((evl.foldl selStep m).map (fun p => p.1)) := by
  intro evl
  induction evl with
  | nil => intro m sel h; cases h
  | cons ev rest ih =>
      intro m sel h
      rw [List.foldl_cons]
      unfold selectorsOf at h
      rw [List.filterMap_cons] at h
      cases hsel : ev.selector with
      | none =>
          rw [hsel] at h
          rw [selStep_none m ev hsel]
          exact ih m sel h
      | some sel0 =>
          rw [hsel] at h
          by_cases hz : sel0 = ""
          · rw [selStep_empty m ev sel0 hsel hz]
            have h' : sel ∈ selectorsOf rest := by
              have hred : (match some sel0 with
                  | none => none
                  | some sel => if sel = "" then none else some sel) = none := by
                simp [hz]
              rw [hred] at h
              exact h
            exact ih m sel h'
          · rw [selStep_push m ev sel0 hsel hz]
            have hred : (match some sel0 with
                | none => none
                | some sel => if sel = "" then none else some sel) = some sel0 := by
              simp [hz]
            rw [hred] at h
            rcases List.mem_cons.mp h with rfl | h
            · exact selMap_fold_keys_mono rest _ sel (sel_mem_pushSel m sel ev)
            · exact ih _ sel h

theorem selectorsOf_sub_selMapOf (evl : List ESpec) (sel : String)
    (h : sel ∈ selectorsOf evl) : sel ∈ (selMapOf evl).map (fun p => p.1) :=
  selectorsOf_sub_keys evl [] sel h

theorem typesInOrder_fold_mono :
    ∀ (l : List ESpec) (acc : List String) (x : String), x ∈ acc →
      x ∈ l.foldl (fun acc e => if acc.contains e.type then acc else acc ++ [e.type]) acc := by
  intro l
  induction l with
  | nil => intro acc x hx; exact hx
  | cons e rest ih =>
      intro acc x hx
      rw [List.foldl_cons]
      by_cases h : acc.contains e.type
      · rw [if_pos h]; exact ih acc x hx
      · rw [if_neg h]; exact ih _ x (List.mem_append_left _ hx)

theorem mem_typesInOrder (events : List ESpec) (ev : ESpec) (h : ev ∈ events) :
    ev.type ∈ typesInOrder events := by
  unfold typesInOrder
  have hgen : ∀ (l : List ESpec) (acc : List String), ev ∈ l →
      ev.type ∈ l.foldl (fun acc e => if acc.contains e.type then acc else acc ++ [e.type]) acc := by
    intro l
    induction l with
    | nil => intro acc hc; cases hc
    | cons e rest ih =>
        intro acc hc
        rw [List.foldl_cons]
        rcases List.mem_cons.mp hc with rfl | hc
        · by_cases hin : acc.contains ev.type
          · rw [if_pos hin]
            exact typesInOrder_fold_mono rest acc ev.type (by simpa using hin)
          · rw [if_neg hin]
            exact typesInOrder_fold_mono rest _ ev.type (List.mem_append_right _ (by simp))
        · exact ih _ hc
  exact hgen events [] h

theorem allSelectors_store (gs : List GroupInfo) (i j : Nat) :
    allSelectors
        ((gs.map (fun g => (⟨g.t, g.lid, some (g.selMap.map (fun p => p.1))⟩ : StoredEntry)))
          ++ [⟨"mouseover", i, none⟩, ⟨"mouseout", j, none⟩])
      = gs.flatMap (fun g => g.selMap.map (fun p => p.1)) := by
  unfold allSelectors
  rw [List.flatMap_append]
  have h2 : (([⟨"mouseover", i, none⟩, ⟨"mouseout", j, none⟩] : List StoredEntry).flatMap
      (fun en => en.selectors.getD [])) = [] := rfl
  rw [h2, List.append_nil, List.flatMap_map]
  rfl

theorem selectorsOf_sub_groups (d : Dom) (root : Nat) (E : List ESpec) (startId : Nat) :
    ∀ sel ∈ selectorsOf E,
      sel ∈ (buildGroups d root E startId).1.flatMap (fun g => g.selMap.map (fun p => p.1)) := by
  intro sel hsel
  rcases List.mem_filterMap.mp hsel with ⟨ev0, hev0, hf⟩
  cases hsel0 : ev0.selector with
  | none => rw [hsel0] at hf; cases hf
  | some sel0 =>
      rw [hsel0] at hf
      by_cases hz : sel0 = ""
      · simp [hz] at hf
      · have hss : sel0 = sel := by simpa [hz] using hf
        subst hss
        have ht : ev0.type ∈ typesInOrder E := mem_typesInOrder E ev0 hev0
        rw [← buildGroups_map_types d root E startId] at ht
        rcases List.mem_map.mp ht with ⟨g, hg, hgt⟩
        obtain ⟨hsm, _⟩ := buildGroups_groups_spec d root E startId g hg
        refine List.mem_flatMap.mpr ⟨g, hg, ?_⟩
        rw [hsm]
        have hev0' : ev0 ∈ ofType E g.t := by
          unfold ofType
          exact List.mem_filter.mpr ⟨hev0, by simp [hgt]⟩
        exact selectorsOf_sub_selMapOf _ sel0
          (selectorsOf_mem _ ev0 sel0 hev0' hsel0 hz)

theorem unbindEvents_dom_noEventClass (s : EngineState) (h : noEventClass s.dom) :
    noEventClass (unbindEvents s).dom := by
  unfold unbindEvents
  cases hs : s.store with
  | none => exact h
  | some entries =>
      rw [unbind_fold_dom]
      exact strip_list_noEventClass _ _ _ h

theorem unbindEvents_dom_nids (s : EngineState) :
    ((unbindEvents s).dom.nodes.map (fun n => n.nid)) = s.dom.nodes.map (fun n => n.nid) := by
  unfold unbindEvents
  cases hs : s.store with
  | none => rfl
  | some entries =>
      rw [unbind_fold_dom]
      exact nids_strip_list _ _ _

/-- Claim C7: for a root with a delegation record, `unbindEvents` removes
every native listener `bindEvents` registered (including the hover pair),
strips the discoverability marker class from all previously marked
elements, and a subsequent native event on the root triggers no handler;
for a root with no record it is a no-op. -/
theorem unbind_removes_listeners_and_markers :
    (∀ s : EngineState, s.store = none → unbindEvents s = s)
  ∧ (∀ (s : EngineState) (E : List ESpec) (vd : List JsVal) (ev : NativeEvent),
      storeCoversNative s → noEventClass s.dom →
      (s.dom.nodes.map (fun n => n.nid)).Nodup → E ≠ [] →
      (unbindEvents (bindEvents s (some s.root) E vd)).native = []
      ∧ noEventClass (unbindEvents (bindEvents s (some s.root) E vd)).dom
      ∧ deliverEvent (unbindEvents (bindEvents s (some s.root) E vd)) ev
          = (unbindEvents (bindEvents s (some s.root) E vd), [])) := by
  constructor
  · intro s h
    unfold unbindEvents
    rw [h]
  · intro s E vd ev hcov hclean hids hE
    have hEne : ¬ E.isEmpty := by simpa [List.isEmpty_iff] using hE
    have hbind : bindEvents s (some s.root) E vd = bindEventsCore s E vd := by
      simp [bindEvents, hEne]
    rw [hbind]
    have hcov2 : storeCoversNative (bindEventsCore s E vd) :=
      bindEventsCore_cover s E vd hcov
    have hnat : (unbindEvents (bindEventsCore s E vd)).native = [] :=
      unbindEvents_native_nil _ hcov2
    refine ⟨hnat, ?_, ?_⟩
    · -- all marker classes are stripped again
      have hroot1 : (unbindEvents s).root = s.root := (unbindEvents_proj s).1
      have hdomclean : noEventClass (unbindEvents s).dom :=
        unbindEvents_dom_noEventClass s hclean
      have hids1 : ((unbindEvents s).dom.nodes.map (fun n => n.nid)).Nodup := by
        rw [unbindEvents_dom_nids]; exact hids
      have hmarked : markedOK (bindEventsCore s E vd).dom (unbindEvents s).root
          (selectorsOf E) := by
        have h0 : markedOK (unbindEvents s).dom (unbindEvents s).root (selectorsOf E) :=
          markedOK_of_noEventClass hdomclean _
        exact buildGroups_fold_marked (unbindEvents s).dom (unbindEvents s).root E
          (unbindEvents s).nextId hids1 h0
      have hstore := bindEventsCore_store s E vd
      have hdom2 : (unbindEvents (bindEventsCore s E vd)).dom
          = (allSelectors
              (((buildGroups (unbindEvents s).dom (unbindEvents s).root E
                    (unbindEvents s).nextId).1.map
                  (fun g => (⟨g.t, g.lid, some (g.selMap.map (fun p => p.1))⟩ : StoredEntry)))
                ++ [⟨"mouseover",
                      (unbindEvents s).nextId
                        + (buildGroups (unbindEvents s).dom (unbindEvents s).root E
                            (unbindEvents s).nextId).1.length, none⟩,
                    ⟨"mouseout",
                      (unbindEvents s).nextId
                        + (buildGroups (unbindEvents s).dom (unbindEvents s).root E
                            (unbindEvents s).nextId).1.length + 1, none⟩])).foldl
              (fun dd sel => stripMarker dd (bindEventsCore s E vd).root sel)
              (bindEventsCore s E vd).dom := by
        conv_lhs => rw [unbindEvents.eq_def]
        rw [hstore]
        exact unbind_fold_dom _ _
      rw [hdom2, allSelectors_store, bindEventsCore_root]
      refine strip_sequence_clears s.root _ _ ?_
      have hmarked' : markedOK (bindEventsCore s E vd).dom s.root (selectorsOf E) := by
        rw [← hroot1]
        exact hmarked
      exact markedOK_mono
        (fun x hx => selectorsOf_sub_groups (unbindEvents s).dom
          (unbindEvents s).root E (unbindEvents s).nextId x hx)
        hmarked'
    · -- subsequent events trigger no handler
      unfold deliverEvent
      rw [hnat]
      rfl

/-- Witness for C7: binding a click selector in the example document and
then unbinding leaves no native listener and no marker class anywhere,
and an event delivered afterwards produces no handler calls. -/
theorem unbind_removes_listeners_and_markers_witness :
    noEventClass exListDom
    ∧ (unbindEvents (bindEvents (initState exListDom 0) (some 0)
        [⟨"click", some ".a", 7⟩] [])).native = []
    ∧ noEventClass (unbindEvents (bindEvents (initState exListDom 0) (some 0)
        [⟨"click", some ".a", 7⟩] [])).dom := by
  have h := unbind_removes_listeners_and_markers.2 (initState exListDom 0)
    [⟨"click", some ".a", 7⟩] [] ⟨"click", 3, none⟩
    (by intro ne hne; cases hne)
    (by unfold noEventClass; decide)
    (by decide) (by decide)
  exact ⟨by unfold noEventClass; decide, h.1, h.2.1⟩

/-! ## Hover activation sub-engine (C8) -/

theorem activeOnly_addClass (d : Dom) (i : Nat)
    (h : ∀ n ∈ d.nodes, n.classes.contains RULES.eventActiveClass = true → n.nid = i) :
    activeOnlyCurrent (addClassAt d i RULES.eventActiveClass) (some i) := by
  intro n' hn' hmark
  unfold addClassAt updateNode at hn'
  rcases List.mem_map.mp hn' with ⟨n, hn, hEq⟩
  by_cases hid : n.nid = i
  · rw [← hEq]
    rw [if_pos hid]
    show some i = some ((addClassFn RULES.eventActiveClass n).nid)
    rw [show (addClassFn RULES.eventActiveClass n).nid = n.nid from rfl, hid]
  · rw [← hEq, if_neg hid] at hmark
    exact absurd (h n hn hmark) hid

theorem no_active_after_remove (d : Dom) (cnid : Nat)
    (h : activeOnlyCurrent d (some cnid)) :
    ∀ n ∈ (removeClassAt d cnid RULES.eventActiveClass).nodes,
      n.classes.contains RULES.eventActiveClass = true → False := by
  intro n' hn' hmark
  unfold removeClassAt updateNode at hn'
  rcases List.mem_map.mp hn' with ⟨n, hn, hEq⟩
  by_cases hid : n.nid = cnid
  · rw [← hEq, if_pos hid] at hmark
    exact absurd ((contains_removeClassFn _ _ _).mp hmark).1 (by simp)
  · rw [← hEq, if_neg hid] at hmark
    exact hid (Option.some.inj (h n hn hmark)).symm

theorem hoverOverStep_preserves_active (d : Dom) (el : Nat) (ca : Option Nat) (t : Nat)
    (h : activeOnlyCurrent d ca) :
    activeOnlyCurrent (hoverOverStep d el ca t).1 (hoverOverStep d el ca t).2 := by
  cases hc : closestSel d ("." ++ RULES.eventClass) t with
  | none =>
      have heq : hoverOverStep d el ca t = (d, ca) := by
        unfold hoverOverStep; rw [hc]
      rw [heq]; exact h
  | some tgt =>
      by_cases hcont : containsNode d el tgt.nid
      · cases ca with
        | none =>
            have heq : hoverOverStep d el none t
                = (addClassAt d tgt.nid RULES.eventActiveClass, some tgt.nid) := by
              unfold hoverOverStep; rw [hc]; simp [hcont]
            rw [heq]
            exact activeOnly_addClass d tgt.nid
              (fun n hn hm => absurd (h n hn hm) (by simp))
        | some c =>
            by_cases hceq : c ≠ tgt.nid
            · have heq : hoverOverStep d el (some c) t
                  = (addClassAt (removeClassAt d c RULES.eventActiveClass) tgt.nid
                      RULES.eventActiveClass, some tgt.nid) := by
                unfold hoverOverStep; rw [hc]; simp [hcont, hceq]
              rw [heq]
              exact activeOnly_addClass _ tgt.nid
                (fun n hn hm => (no_active_after_remove d c h n hn hm).elim)
            · push_neg at hceq
              have heq : hoverOverStep d el (some c) t
                  = (addClassAt d tgt.nid RULES.eventActiveClass, some tgt.nid) := by
                unfold hoverOverStep; rw [hc]; simp [hcont, hceq]
              rw [heq]
              exact activeOnly_addClass d tgt.nid
                (fun n hn hm => by
                  have hx := h n hn hm
                  rw [← hceq]
                  exact (Option.some.inj hx).symm)
      · have heq : hoverOverStep d el ca t = (d, ca) := by
          unfold hoverOverStep; rw [hc]
          simp [Bool.eq_false_iff.mpr hcont]
        rw [heq]; exact h

theorem hoverOutStep_preserves_active (d : Dom) (ca : Option Nat) (r : Option Nat)
    (h : activeOnlyCurrent d ca) :
    activeOnlyCurrent (hoverOutStep d ca r).1 (hoverOutStep d ca r).2 := by
  cases ca with
  | none =>
      have heq : hoverOutStep d none r = (d, none) := by unfold hoverOutStep; rfl
      rw [heq]
      exact h
  | some c =>
      cases r with
      | none =>
          have heq : hoverOutStep d (some c) none
              = (removeClassAt d c RULES.eventActiveClass, none) := by
            unfold hoverOutStep; rfl
          rw [heq]
          exact fun n hn hm => ((no_active_after_remove d c h n hn hm).elim)
      | some rr =>
          by_cases hcont : containsNode d c rr
          · have heq : hoverOutStep d (some c) (some rr) = (d, some c) := by
              unfold hoverOutStep; simp [hcont]
            rw [heq]; exact h
          · cases hcl : closestSel d ("." ++ RULES.eventClass) rr with
            | some nxt =>
                have heq : hoverOutStep d (some c) (some rr) = (d, some c) := by
                  unfold hoverOutStep; simp [hcont, hcl]
                rw [heq]; exact h
            | none =>
                have heq : hoverOutStep d (some c) (some rr)
                    = (removeClassAt d c RULES.eventActiveClass, none) := by
                  unfold hoverOutStep; simp [hcont, hcl]
                rw [heq]
                exact fun n hn hm => ((no_active_after_remove d c h n hn hm).elim)

theorem runHover_preserves_active (el : Nat) :
    ∀ (evs : List HoverEv) (p : Dom × Option Nat),
      activeOnlyCurrent p.1 p.2 →
      activeOnlyCurrent (runHover el p evs).1 (runHover el p evs).2 := by
  intro evs
  induction evs with
  | nil => intro p h; exact h
  | cons e rest ih =>
      intro p h
      show activeOnlyCurrent (runHover el (hoverStep el p e) rest).1
        (runHover el (hoverStep el p e) rest).2
      refine ih _ ?_
      cases e with
      | over t => exact hoverOverStep_preserves_active p.1 el p.2 t h
      | out r => exact hoverOutStep_preserves_active p.1 p.2 r h

/-- Counterexample to claim C8 as stated: a `mouseover` whose target's
nearest marker-classed ancestor exists (identity 0) and differs from
`currentActive` does *not* activate it when that ancestor lies outside
the root — the code's `el.contains(target)` guard, which the claim
omits, makes the transition a no-op. -/
theorem hover_enter_outside_root_counterexample :
    closestSel exOuterMarkerDom ("." ++ RULES.eventClass) 2
      = some ⟨0, none, ["dh-event"], none, none⟩
    ∧ hoverOverStep exOuterMarkerDom 1 none 2 = (exOuterMarkerDom, none)
    ∧ (none : Option Nat) ≠ some 0 :=
  ⟨by decide, by decide, by decide⟩

/-- Claim C8, amended: the hover sub-engine keeps a single `currentActive`
variable, and in every state reachable from an inactive start at most one
element carries the active class — the one `currentActive` names.  On a
pointer-enter event whose target's nearest marker-classed ancestor
exists, *lies inside the root*, and differs from `currentActive`, the old
active element (if any) loses the active class and the new one gains it
and becomes `currentActive`; on a pointer-leave event the active class is
removed and `currentActive` cleared exactly when the destination is
absent, or lies neither inside `currentActive` nor inside any
marker-classed region. -/
theorem hover_state_machine_spec :
    (∀ (el : Nat) (d0 : Dom) (evs : List HoverEv),
      activeOnlyCurrent d0 none →
      activeOnlyCurrent (runHover el (d0, none) evs).1 (runHover el (d0, none) evs).2)
  ∧ (∀ (d : Dom) (el : Nat) (ca : Option Nat) (target : Nat) (tgt : DomNode),
      closestSel d ("." ++ RULES.eventClass) target = some tgt →
      containsNode d el tgt.nid = true →
      ca ≠ some tgt.nid →
      hoverOverStep d el ca target
        = (addClassAt
            (match ca with
             | some c => removeClassAt d c RULES.eventActiveClass
             | none => d)
            tgt.nid RULES.eventActiveClass, some tgt.nid))
  ∧ (∀ (d : Dom) (c : Nat) (related : Option Nat),
      ((hoverOutStep d (some c) related).2 = none
        ↔ (related = none ∨ ∃ r, related = some r
            ∧ containsNode d c r = false
            ∧ closestSel d ("." ++ RULES.eventClass) r = none))
      ∧ ((hoverOutStep d (some c) related).2 = none →
          (hoverOutStep d (some c) related).1
            = removeClassAt d c RULES.eventActiveClass)
      ∧ ((hoverOutStep d (some c) related).2 = some c →
          (hoverOutStep d (some c) related).1 = d)) := by
  refine ⟨?_, ?_, ?_⟩
  · intro el d0 evs h
    exact runHover_preserves_active el evs (d0, none) h
  · intro d el ca target tgt hc hcont hca
    cases ca with
    | none =>
        show hoverOverStep d el none target
          = (addClassAt d tgt.nid RULES.eventActiveClass, some tgt.nid)
        unfold hoverOverStep
        rw [hc]
        simp [hcont]
    | some c =>
        have hcne : c ≠ tgt.nid := fun heq => hca (by rw [heq])
        show hoverOverStep d el (some c) target
          = (addClassAt (removeClassAt d c RULES.eventActiveClass) tgt.nid
              RULES.eventActiveClass, some tgt.nid)
        unfold hoverOverStep
        rw [hc]
        simp [hcont, hcne]
  · intro d c related
    cases related with
    | none =>
        have heq : hoverOutStep d (some c) none
            = (removeClassAt d c RULES.eventActiveClass, none) := by
          unfold hoverOutStep; rfl
        rw [heq]
        exact ⟨by simp, fun _ => rfl, fun hx => Option.noConfusion hx⟩
    | some rr =>
        by_cases hcont : containsNode d c rr
        · have heq : hoverOutStep d (some c) (some rr) = (d, some c) := by
            unfold hoverOutStep; simp [hcont]
          rw [heq]
          refine ⟨?_, fun hx => Option.noConfusion hx, fun _ => rfl⟩
          simp [hcont]
        · have hcf : containsNode d c rr = false := by simpa using hcont
          cases hcl : closestSel d ("." ++ RULES.eventClass) rr with
          | some nxt =>
              have heq : hoverOutStep d (some c) (some rr) = (d, some c) := by
                unfold hoverOutStep; simp [hcont, hcl]
              rw [heq]
              refine ⟨?_, fun hx => Option.noConfusion hx, fun _ => rfl⟩
              simp [hcl]
          | none =>
              have heq : hoverOutStep d (some c) (some rr)
                  = (removeClassAt d c RULES.eventActiveClass, none) := by
                unfold hoverOutStep; simp [hcont, hcl]
              rw [heq]
              refine ⟨?_, fun _ => rfl, fun hx => Option.noConfusion hx⟩
              simp [hcf, hcl]

/-- Witness for C8: starting inactive over the example document, a
sequence of two enters and a leave keeps the at-most-one-active
invariant. -/
theorem hover_state_machine_spec_witness :
    activeOnlyCurrent exHoverDom none
    ∧ activeOnlyCurrent
        (runHover 0 (exHoverDom, none) [.over 3, .over 2, .out none]).1
        (runHover 0 (exHoverDom, none) [.over 3, .over 2, .out none]).2 := by
  constructor
  · unfold activeOnlyCurrent
    decide
  · exact hover_state_machine_spec.1 0 exHoverDom [.over 3, .over 2, .out none]
      (by unfold activeOnlyCurrent; decide)

/-- Claim C10: `bindEvents` with a null root or an empty event-spec list
returns before doing anything: the engine state — document, native
listeners, store record, hover state — is left exactly as it was, and in
particular no prior unbind is performed. -/
theorem bindEvents_guard_noop :
    (∀ s events vd, bindEvents s none events vd = s)
  ∧ (∀ s el vd, bindEvents s el ([] : List ESpec) vd = s) := by
  constructor
  · intro s events vd; rfl
  · intro s el vd
    cases el <;> simp [bindEvents]

end UIRender
